import Mathlib

/-!
# Verification of the agent-core desktop client's state synchronization core

This development shallowly embeds the state-synchronization subsystem of the
`desktop-gpui` package: the data model and event-applier mutations of
`src/state.rs`, the daemon event dispatch and reconnect loop of
`src/events.rs`, and the SSE wire decoders of `src/api/client.rs`.
Rust `String` keys become Lean `String`; Rust `HashMap<String, V>` becomes an
association list with first-binding lookup/replace semantics (hash order is
unobservable through the operations used by the code); Rust `Vec<T>` becomes
`List T`; fallible `serde_json` parses become `Option`-returning functions.
Only the `AppState` fields touched by the embedded operations are carried;
every omitted field (providers, dialogs, prompt text, ...) is untouched by
all of the functions modelled here.
-/

namespace AgentCore

/-- Opaque stand-in for a `serde_json::Value` carried through the model
(`input`, `metadata` fields); never inspected by the embedded code. -/
structure JsonValue where
  raw : String
deriving DecidableEq

/-- `ModelInfo` from `api/types.rs`. -/
structure ModelInfo where
  provider_id : String
  model_id : String
deriving DecidableEq

/-- `Session` from `api/types.rs`. -/
structure Session where
  id : String
  title : Option String
  created_at : Int
  updated_at : Int
  agent : Option String
  model : Option ModelInfo
  message_count : Int
deriving DecidableEq

/-- `MessageRole` from `api/types.rs`. -/
inductive MessageRole where
  | user
  | assistant
deriving DecidableEq

/-- `MessageTime` from `api/types.rs`. -/
structure MessageTime where
  created : Int
  completed : Option Int
deriving DecidableEq

/-- `FileDiff` from `api/types.rs`. -/
structure FileDiff where
  file : String
  before : String
  after : String
  additions : Int
  deletions : Int
deriving DecidableEq

/-- `MessageSummary` from `api/types.rs`. -/
structure MessageSummary where
  title : Option String
  body : Option String
  diffs : List FileDiff
deriving DecidableEq

/-- `MessagePart` from `api/types.rs` (tagged union). -/
inductive MessagePart where
  | text (text : String)
  | toolUse (id : String) (name : String) (input : JsonValue)
  | toolResult (tool_use_id : String) (content : String) (is_error : Bool)
  | reasoning (text : String)
deriving DecidableEq

/-- `Message` from `api/types.rs`. -/
structure Message where
  id : String
  session_id : String
  role : MessageRole
  time : MessageTime
  summary : Option MessageSummary
  agent : Option String
  parts : List MessagePart
deriving DecidableEq

/-- `Message::default()` (all fields serde/`Default` defaults). -/
def Message.default : Message :=
  { id := "", session_id := "", role := .user,
    time := { created := 0, completed := none },
    summary := none, agent := none, parts := [] }

/-- `ToolStatus` from `api/types.rs`. -/
inductive ToolStatus where
  | pending
  | running
  | completed
  | error
deriving DecidableEq

/-- `ToolState` from `api/types.rs`. -/
structure ToolState where
  status : ToolStatus
  output : Option String
  is_error : Bool
  metadata : Option JsonValue
deriving DecidableEq

/-- `PartContent` from `api/types.rs` (tagged union). -/
inductive PartContent where
  | text (text : String)
  | toolUse (tool_use_id : String) (name : String) (input : JsonValue) (state : ToolState)
  | reasoning (text : String)
deriving DecidableEq

/-- `Part` from `api/types.rs`: a message part for real-time updates. -/
structure Part where
  id : String
  message_id : String
  content : PartContent
deriving DecidableEq

/-- `ToolReference` from `api/types.rs`. -/
structure ToolReference where
  message_id : String
  call_id : String
deriving DecidableEq

/-- `PermissionRequest` from `api/types.rs`. -/
structure PermissionRequest where
  id : String
  session_id : String
  permission : String
  patterns : List String
  metadata : JsonValue
  always : List String
  tool : Option ToolReference
deriving DecidableEq

/-- `QuestionOption` from `api/types.rs`. -/
structure QuestionOption where
  label : String
  description : Option String
deriving DecidableEq

/-- `QuestionInfo` from `api/types.rs`. -/
structure QuestionInfo where
  question : String
  header : String
  options : List QuestionOption
  multiple : Bool
  custom : Bool
deriving DecidableEq

/-- `QuestionRequest` from `api/types.rs`. -/
structure QuestionRequest where
  id : String
  session_id : String
  questions : List QuestionInfo
  tool : Option ToolReference
deriving DecidableEq

/-- `SessionStatus` from `api/types.rs`. -/
structure SessionStatus where
  busy : Bool
  agent : Option String
deriving DecidableEq

/-- `ToolCall` from `api/types.rs` (streaming). -/
structure ToolCall where
  id : String
  name : String
  input : JsonValue
deriving DecidableEq

/-- `ToolCallResult` from `api/types.rs` (streaming). -/
structure ToolCallResult where
  id : String
  output : Option String
  is_error : Bool
deriving DecidableEq

/-- `DaemonEvent` from `api/types.rs`. The `MessageCreated`/`MessageUpdated`
payload struct `MessageEvent { session_id, message }` is inlined as two
constructor arguments. -/
inductive DaemonEvent where
  | sessionCreated (session : Session)
  | sessionUpdated (session : Session)
  | sessionDeleted (session_id : String)
  | sessionStatus (session_id : String) (status : SessionStatus)
  | messageCreated (session_id : String) (message : Message)
  | messageUpdated (session_id : String) (message : Message)
  | messageRemoved (session_id : String) (message_id : String)
  | messagePartUpdated (part : Part)
  | messagePartRemoved (message_id : String) (part_id : String)
  | permissionAsked (request : PermissionRequest)
  | permissionReplied (session_id : String) (request_id : String)
  | questionAsked (request : QuestionRequest)
  | questionReplied (session_id : String) (request_id : String)
  | connectionStatus (connected : Bool)
  | keepalive
deriving DecidableEq

-- ============================================================================
-- String-keyed maps: association lists with HashMap semantics
-- ============================================================================

/-- Association-list embedding of `HashMap<String, V>`; keys are unique by
construction through the operations below. -/
abbrev SMap (α : Type) := List (String × α)

/-- `HashMap::get`: value of the first binding of `k`. -/
def mapFind {α : Type} : SMap α → String → Option α
  | [], _ => none
  | kv :: rest, k => if kv.1 = k then some kv.2 else mapFind rest k

/-- `HashMap::insert`: replace the binding of `k` in place, else append. -/
def mapInsert {α : Type} : SMap α → String → α → SMap α
  | [], k, v => [(k, v)]
  | kv :: rest, k, v => if kv.1 = k then (k, v) :: rest else kv :: mapInsert rest k v

/-- `HashMap::remove`: drop the binding of `k`. -/
def mapErase {α : Type} : SMap α → String → SMap α
  | [], _ => []
  | kv :: rest, k => if kv.1 = k then mapErase rest k else kv :: mapErase rest k

/-- `HashMap::get_mut` followed by an in-place mutation `f`: modify the
binding of `k` if present, else leave the map unchanged. -/
def mapModify {α : Type} : SMap α → String → (α → α) → SMap α
  | [], _, _ => []
  | kv :: rest, k, f => if kv.1 = k then (kv.1, f kv.2) :: rest else kv :: mapModify rest k f

-- ============================================================================
-- Application state (`state.rs`), restricted to the event-relevant fields
-- ============================================================================

/-- `ActiveView` from `state.rs`. -/
inductive ActiveView where
  | sessions
  | chat
  | settings
deriving DecidableEq

/-- `AppState` from `state.rs`, restricted to the fields read or written by
the daemon event applier and the reconnect loop (every omitted field is
untouched by all functions embedded here). -/
structure AppState where
  connected : Bool
  connecting : Bool
  sessions : List Session
  active_session_id : Option String
  active_view : ActiveView
  session_status : SMap SessionStatus
  messages : SMap (List Message)
  parts : SMap (List Part)
  permissions : SMap (List PermissionRequest)
  questions : SMap (List QuestionRequest)
deriving DecidableEq

/-- `AppState::default()` restricted to the carried fields. -/
def AppState.default : AppState :=
  { connected := false, connecting := false, sessions := [],
    active_session_id := none, active_view := .sessions,
    session_status := [], messages := [], parts := [],
    permissions := [], questions := [] }

/-- `AppState::set_connected`. -/
def set_connected (st : AppState) (connected : Bool) : AppState :=
  { st with connected := connected, connecting := false }

/-- `AppState::add_session`: `self.sessions.insert(0, session)`. -/
def add_session (st : AppState) (session : Session) : AppState :=
  { st with sessions := session :: st.sessions }

/-- `AppState::remove_session`. -/
def remove_session (st : AppState) (session_id : String) : AppState :=
  let st := { st with
    sessions := st.sessions.filter (fun s => ¬ s.id = session_id),
    messages := mapErase st.messages session_id }
  if st.active_session_id = some session_id then
    { st with active_session_id := none, active_view := .sessions }
  else
    st

/-- Lexicographic order on char lists; embeds Rust's `String: Ord`
(byte-wise lexicographic on UTF-8, which coincides with code-point
lexicographic order). -/
def charsLt : List Char → List Char → Bool
  | _, [] => false
  | [], _ :: _ => true
  | a :: as, b :: bs => if a < b then true else if a = b then charsLt as bs else false

/-- Rust `a < b` on `String` ids. -/
def strLt (a b : String) : Bool := charsLt a.toList b.toList

/-- `Vec::iter_mut().find(..)` + `*existing = v`: replace the first element
matched by `p` with `v`. -/
def replaceFirst {α : Type} (p : α → Bool) (v : α) : List α → List α
  | [] => []
  | x :: rest => if p x then v :: rest else x :: replaceFirst p v rest

/-- `AppState::update_session`: replace the first session with a matching id,
no-op when absent. -/
def update_session (st : AppState) (session : Session) : AppState :=
  if st.sessions.any (fun s => s.id = session.id) then
    { st with sessions := replaceFirst (fun s => s.id = session.id) session st.sessions }
  else
    st

/-- `AppState::set_session_status`. -/
def set_session_status (st : AppState) (session_id : String) (status : SessionStatus) : AppState :=
  { st with session_status := mapInsert st.session_status session_id status }

/-- `AppState::add_message`: `entry(..).or_default().push(message)`. -/
def add_message (st : AppState) (session_id : String) (message : Message) : AppState :=
  let msgs := (mapFind st.messages session_id).getD []
  { st with messages := mapInsert st.messages session_id (msgs ++ [message]) }

/-- `iter().position(|p| p.id > v.id)` then `insert(pos, v)`: insert before
the first element with a larger id, else push at the end. -/
def insertSortedById {α : Type} (idOf : α → String) (v : α) : List α → List α
  | [] => [v]
  | x :: rest =>
    if strLt (idOf v) (idOf x) then v :: x :: rest else x :: insertSortedById idOf v rest

/-- The find-or-replace-else-insert-sorted body shared verbatim (up to the
element type) by `update_part`, `handle_permission_asked` and
`handle_question_asked` in `state.rs`. -/
def upsertById {α : Type} (idOf : α → String) (v : α) (l : List α) : List α :=
  if l.any (fun x => idOf x = idOf v) then
    replaceFirst (fun x => idOf x = idOf v) v l
  else
    insertSortedById idOf v l

/-- `AppState::update_part`. -/
def update_part (st : AppState) (part : Part) : AppState :=
  let ps := (mapFind st.parts part.message_id).getD []
  { st with parts := mapInsert st.parts part.message_id (upsertById Part.id part ps) }

/-- `AppState::remove_part`. -/
def remove_part (st : AppState) (message_id : String) (part_id : String) : AppState :=
  match mapFind st.parts message_id with
  | none => st
  | some _ =>
    let parts' := mapModify st.parts message_id (fun ps => ps.filter (fun p => ¬ p.id = part_id))
    { st with parts := parts' }

/-- `AppState::handle_permission_asked`. -/
def handle_permission_asked (st : AppState) (request : PermissionRequest) : AppState :=
  let q := (mapFind st.permissions request.session_id).getD []
  { st with permissions :=
      mapInsert st.permissions request.session_id (upsertById PermissionRequest.id request q) }

/-- `AppState::handle_permission_replied`. -/
def handle_permission_replied (st : AppState) (session_id : String) (request_id : String) : AppState :=
  match mapFind st.permissions session_id with
  | none => st
  | some _ =>
    let perms' := mapModify st.permissions session_id (fun q => q.filter (fun p => ¬ p.id = request_id))
    { st with permissions := perms' }

/-- `AppState::handle_question_asked`. -/
def handle_question_asked (st : AppState) (request : QuestionRequest) : AppState :=
  let q := (mapFind st.questions request.session_id).getD []
  { st with questions :=
      mapInsert st.questions request.session_id (upsertById QuestionRequest.id request q) }

/-- `AppState::handle_question_replied`. -/
def handle_question_replied (st : AppState) (session_id : String) (request_id : String) : AppState :=
  match mapFind st.questions session_id with
  | none => st
  | some _ =>
    let qs' := mapModify st.questions session_id (fun q => q.filter (fun p => ¬ p.id = request_id))
    { st with questions := qs' }

-- ============================================================================
-- Daemon event dispatch (`events.rs::handle_event`)
-- ============================================================================

/-- `handle_event` from `events.rs`: apply one decoded daemon event to the
state store. The `MessageUpdated` and `MessageRemoved` arms inline the same
mutations as the Rust match arms. -/
def handle_event (event : DaemonEvent) (st : AppState) : AppState :=
  match event with
  | .sessionCreated session => add_session st session
  | .sessionUpdated session => update_session st session
  | .sessionDeleted session_id => remove_session st session_id
  | .sessionStatus session_id status => set_session_status st session_id status
  | .messageCreated session_id message => add_message st session_id message
  | .messageUpdated session_id message =>
    match mapFind st.messages session_id with
    | some msgs =>
      if msgs.any (fun m => m.id = message.id) then
        let msgs' := mapModify st.messages session_id (replaceFirst (fun m => m.id = message.id) message)
        { st with messages := msgs' }
      else
        { st with messages := mapModify st.messages session_id (fun ms => ms ++ [message]) }
    | none =>
      { st with messages := mapInsert st.messages session_id [message] }
  | .messageRemoved session_id message_id =>
    let st :=
      match mapFind st.messages session_id with
      | some _ =>
        let msgs' := mapModify st.messages session_id (fun ms => ms.filter (fun m => ¬ m.id = message_id))
        { st with messages := msgs' }
      | none => st
    { st with parts := mapErase st.parts message_id }
  | .messagePartUpdated part => update_part st part
  | .messagePartRemoved message_id part_id => remove_part st message_id part_id
  | .permissionAsked request => handle_permission_asked st request
  | .permissionReplied session_id request_id => handle_permission_replied st session_id request_id
  | .questionAsked request => handle_question_asked st request
  | .questionReplied session_id request_id => handle_question_replied st session_id request_id
  | .connectionStatus connected => set_connected st connected
  | .keepalive => st

-- ============================================================================
-- Reconnect supervisor (`events.rs::start_event_loop`)
-- ============================================================================

/-- `Duration::from_millis(100)`: the backoff floor, in milliseconds. -/
def floorDelayMs : Nat := 100

/-- `Duration::from_secs(30)`: the backoff ceiling, in milliseconds. -/
def maxRetryDelayMs : Nat := 30000

/-- One run of the `start_event_loop` retry loop in which the first `fails`
connection attempts fail and the next attempt succeeds, observed at the
moment that attempt enters streaming. Mirrors the loop body of
`events.rs` lines 30-90: a failed attempt falls through to
`state.connected = false`, sleeps `retry_delay`, then doubles the delay
capped at the ceiling; a successful attempt resets `retry_delay` to the
floor and calls `state.set_connected(true)`. Returns the final state, the
final `retry_delay`, the waits slept before each retry (in order), and the
connectivity flag observed after each attempt is handled. -/
def runRetryScenario (st : AppState) (retryDelay : Nat) : Nat → AppState × Nat × List Nat × List Bool
  | 0 =>
    let st' := set_connected st true
    (st', floorDelayMs, [], [st'.connected])
  | fails + 1 =>
    let st' := { st with connected := false }
    let out := runRetryScenario st' (min (retryDelay * 2) maxRetryDelayMs) fails
    (out.1, out.2.1, retryDelay :: out.2.2.1, st'.connected :: out.2.2.2)

-- ============================================================================
-- SSE wire decoder (`api/client.rs`)
-- ============================================================================

/-- Wire-level text: the accumulating `String` buffer of the Rust decoder,
embedded as its character sequence. -/
abbrev Str := List Char

/-- `StreamEvent` from `api/types.rs` (message-generation stream). -/
inductive StreamEvent where
  | content (text : Str)
  | toolCallStart (tc : ToolCall)
  | toolCallEnd (tc : ToolCallResult)
  | reasoning (text : Str)
  | done (message : Message)
  | error (message : Str)
deriving DecidableEq

/-- The `serde_json::from_str::<T>` deserializers used by the two decoders,
kept abstract: JSON parsing is external library code, and no claim depends
on its internals. Each field returns the payload a successful parse would
carry into the corresponding `DaemonEvent`/`StreamEvent` arm. -/
structure SerdeJson where
  toolCallFromJson : Str → Option ToolCall
  toolCallResultFromJson : Str → Option ToolCallResult
  messageFromJson : Str → Option Message
  sessionWrapperFromJson : Str → Option Session
  sessionFromJson : Str → Option Session
  sessionDeletedFromJson : Str → Option String
  sessionStatusFromJson : Str → Option (String × SessionStatus)
  messageWrapperFromJson : Str → Option Message
  messageRemovedFromJson : Str → Option (String × String)
  partWrapperFromJson : Str → Option Part
  partRemovedFromJson : Str → Option (String × String)
  permissionRequestFromJson : Str → Option PermissionRequest
  permissionRepliedFromJson : Str → Option (String × String)
  questionRequestFromJson : Str → Option QuestionRequest
  questionRepliedFromJson : Str → Option (String × String)
  connectionStatusFromJson : Str → Option Bool

/-- The line marker `"event:"`. -/
def eventKey : Str := "event:".toList

/-- The line marker `"data:"`. -/
def dataKey : Str := "data:".toList

/-- The event labels recognised by `parse_sse_message`'s match (everything
else falls to the generic-content arm). -/
def msgLabels : List Str :=
  ["content".toList, "text".toList, "tool_call_start".toList, "tool_call_end".toList,
   "reasoning".toList, "done".toList, "end".toList, "error".toList]

/-- The event labels recognised by `parse_daemon_event_message`'s match
(everything else falls to the discard arm). -/
def daemonLabels : List Str :=
  ["session.created".toList, "session.updated".toList, "session.deleted".toList,
   "session.status".toList, "message.created".toList, "message.updated".toList,
   "message.removed".toList, "message.part.updated".toList, "message.part.removed".toList,
   "permission.asked".toList, "permission.replied".toList, "question.asked".toList,
   "question.replied".toList, "question.rejected".toList, "connection.status".toList,
   "keepalive".toList]

/-- `str::strip_prefix`: drop `pre` from the front of `s` if it is there. -/
def chopFront : Str → Str → Option Str
  | [], s => some s
  | _ :: _, [] => none
  | p :: ps, c :: cs => if p = c then chopFront ps cs else none

/-- The whitespace recognised by `str::trim`, restricted to the ASCII
whitespace that can occur on this wire format. -/
def isWsChar (c : Char) : Bool := c = ' ' ∨ c = '\t' ∨ c = '\n' ∨ c = '\r'

/-- Right half of `str::trim`. -/
def trimRight (s : Str) : Str := (s.reverse.dropWhile isWsChar).reverse

/-- `str::trim`. -/
def trimStr (s : Str) : Str := (trimRight s).dropWhile isWsChar

/-- Split at the first `'\n'`, returning the text before and after it. -/
def splitFirstNL : Str → Option (Str × Str)
  | [] => none
  | c :: rest =>
    if c = '\n' then some ([], rest)
    else (splitFirstNL rest).map (fun pr => (c :: pr.1, pr.2))

/-- `str::lines` strips one trailing `'\r'` from a line that was terminated
by `'\n'`. -/
def stripCR (l : Str) : Str :=
  if l.getLast? = some '\r' then l.dropLast else l

/-- Fuel-indexed splitter behind `rustLines`; the fuel only bounds the
recursion depth (one unit per line) and `rustLines` always supplies enough. -/
def linesFuel : Nat → Str → List Str
  | 0, s => if s.isEmpty then [] else [s]
  | fuel + 1, s =>
    match splitFirstNL s with
    | none => if s.isEmpty then [] else [s]
    | some pr => stripCR pr.1 :: linesFuel fuel pr.2

/-- `str::lines()`: split on `'\n'`, dropping a final empty segment and a
`'\r'` preceding each `'\n'`. -/
def rustLines (s : Str) : List Str := linesFuel s.length s

/-- The line scan shared by `parse_sse_message` and
`parse_daemon_event_message`: the last `event:` line and the last `data:`
line of the block, trimmed. -/
def scanBlock (ls : List Str) : Option Str × Option Str :=
  ls.foldl
    (fun acc line =>
      match chopFront eventKey line with
      | some value => (some (trimStr value), acc.2)
      | none =>
        match chopFront dataKey line with
        | some value => (acc.1, some (trimStr value))
        | none => acc)
    (none, none)

/-- `parse_sse_message` from `api/client.rs` (message-generation stream). -/
def parse_sse_message (J : SerdeJson) (message : Str) : Option StreamEvent :=
  let scans := scanBlock (rustLines message)
  match scans.2 with
  | none => none
  | some data =>
    let event_type := scans.1.getD "message".toList
    if event_type = "content".toList ∨ event_type = "text".toList then
      some (.content data)
    else if event_type = "tool_call_start".toList then
      (J.toolCallFromJson data).map .toolCallStart
    else if event_type = "tool_call_end".toList then
      (J.toolCallResultFromJson data).map .toolCallEnd
    else if event_type = "reasoning".toList then
      some (.reasoning data)
    else if event_type = "done".toList ∨ event_type = "end".toList then
      some (.done ((J.messageFromJson data).getD Message.default))
    else if event_type = "error".toList then
      some (.error data)
    else
      some (.content data)

/-- `parse_daemon_event_message` from `api/client.rs` (daemon stream). -/
def parse_daemon_event_message (J : SerdeJson) (message : Str) : Option DaemonEvent :=
  let scans := scanBlock (rustLines message)
  match scans.2 with
  | none => none
  | some data =>
    match scans.1 with
    | none => none
    | some event_type =>
      if event_type = "session.created".toList ∨ event_type = "session.updated".toList then
        let build : Session → DaemonEvent := fun s =>
          if event_type = "session.created".toList then .sessionCreated s else .sessionUpdated s
        match J.sessionWrapperFromJson data with
        | some s => some (build s)
        | none => (J.sessionFromJson data).map build
      else if event_type = "session.deleted".toList then
        (J.sessionDeletedFromJson data).map .sessionDeleted
      else if event_type = "session.status".toList then
        (J.sessionStatusFromJson data).map (fun pr => .sessionStatus pr.1 pr.2)
      else if event_type = "message.created".toList then
        (J.messageWrapperFromJson data).map (fun m => .messageCreated m.session_id m)
      else if event_type = "message.updated".toList then
        (J.messageWrapperFromJson data).map (fun m => .messageUpdated m.session_id m)
      else if event_type = "message.removed".toList then
        (J.messageRemovedFromJson data).map (fun pr => .messageRemoved pr.1 pr.2)
      else if event_type = "message.part.updated".toList then
        (J.partWrapperFromJson data).map .messagePartUpdated
      else if event_type = "message.part.removed".toList then
        (J.partRemovedFromJson data).map (fun pr => .messagePartRemoved pr.1 pr.2)
      else if event_type = "permission.asked".toList then
        (J.permissionRequestFromJson data).map .permissionAsked
      else if event_type = "permission.replied".toList then
        (J.permissionRepliedFromJson data).map (fun pr => .permissionReplied pr.1 pr.2)
      else if event_type = "question.asked".toList then
        (J.questionRequestFromJson data).map .questionAsked
      else if event_type = "question.replied".toList ∨ event_type = "question.rejected".toList then
        (J.questionRepliedFromJson data).map (fun pr => .questionReplied pr.1 pr.2)
      else if event_type = "connection.status".toList then
        (J.connectionStatusFromJson data).map .connectionStatus
      else if event_type = "keepalive".toList then
        some .keepalive
      else
        none

/-- `buffer.find("\n\n")`: text before the first blank-line separator and
text after it. -/
def findBreak : Str → Option (Str × Str)
  | [] => none
  | [_] => none
  | a :: b :: rest =>
    if a = '\n' ∧ b = '\n' then some ([], rest)
    else (findBreak (b :: rest)).map (fun pr => (a :: pr.1, pr.2))

/-- Fuel-indexed driver behind `extractBlocks`; the fuel only bounds the
recursion depth (one unit per extracted block) and `extractBlocks` always
supplies enough. -/
def drainFuel : Nat → Str → List Str × Str
  | 0, s => ([], s)
  | fuel + 1, s =>
    match findBreak s with
    | none => ([], s)
    | some pr =>
      let out := drainFuel fuel pr.2
      (pr.1 :: out.1, out.2)

/-- The `while let Some(pos) = buffer.find("\n\n")` drain: every complete
block in arrival order, and the leftover buffer. -/
def extractBlocks (s : Str) : List Str × Str := drainFuel s.length s

/-- The per-chunk body of `parse_sse_stream`: append the chunk to the
buffer, drain complete blocks, decode each. -/
def feedChunk (J : SerdeJson) (acc : List StreamEvent × Str) (chunk : Str) : List StreamEvent × Str :=
  let out := extractBlocks (acc.2 ++ chunk)
  (acc.1 ++ out.1.filterMap (parse_sse_message J), out.2)

/-- `parse_sse_stream` over a whole connection: fold the chunks through the
buffer, then flush a non-empty trailing buffer as one final block. -/
def runSseStream (J : SerdeJson) (chunks : List Str) : List StreamEvent :=
  let fin := chunks.foldl (feedChunk J) ([], [])
  if fin.2.isEmpty then fin.1 else fin.1 ++ (parse_sse_message J fin.2).toList

/-- The wire format of N blocks separated (not terminated) by `"\n\n"`. -/
def sseJoin : List Str → Str
  | [] => []
  | [b] => b
  | b :: bs => b ++ '\n' :: '\n' :: sseJoin bs

/-- `String::from_utf8` on one network chunk: decode the byte sequence as
UTF-8, rejecting truncated or malformed sequences, overlong encodings and
surrogates, exactly as Rust's validator does. -/
def utf8Decode : List Nat → Option Str
  | [] => some []
  | b :: rest =>
    if b ≤ 0x7F then
      (utf8Decode rest).map (fun cs => Char.ofNat b :: cs)
    else if 0xC2 ≤ b ∧ b ≤ 0xDF then
      match rest with
      | b2 :: rest2 =>
        if 0x80 ≤ b2 ∧ b2 ≤ 0xBF then
          (utf8Decode rest2).map (fun cs => Char.ofNat ((b - 0xC0) * 64 + (b2 - 0x80)) :: cs)
        else none
      | [] => none
    else if 0xE0 ≤ b ∧ b ≤ 0xEF then
      match rest with
      | b2 :: b3 :: rest3 =>
        let lo2 := if b = 0xE0 then 0xA0 else 0x80
        let hi2 := if b = 0xED then 0x9F else 0xBF
        if (lo2 ≤ b2 ∧ b2 ≤ hi2) ∧ (0x80 ≤ b3 ∧ b3 ≤ 0xBF) then
          (utf8Decode rest3).map
            (fun cs => Char.ofNat ((b - 0xE0) * 4096 + (b2 - 0x80) * 64 + (b3 - 0x80)) :: cs)
        else none
      | _ => none
    else if 0xF0 ≤ b ∧ b ≤ 0xF4 then
      match rest with
      | b2 :: b3 :: b4 :: rest4 =>
        let lo2 := if b = 0xF0 then 0x90 else 0x80
        let hi2 := if b = 0xF4 then 0x8F else 0xBF
        if (lo2 ≤ b2 ∧ b2 ≤ hi2) ∧ (0x80 ≤ b3 ∧ b3 ≤ 0xBF) ∧ (0x80 ≤ b4 ∧ b4 ≤ 0xBF) then
          (utf8Decode rest4).map
            (fun cs => Char.ofNat ((b - 0xF0) * 262144 + (b2 - 0x80) * 4096 + (b3 - 0x80) * 64 + (b4 - 0x80)) :: cs)
        else none
      | _ => none
    else none

/-- UTF-8 encoding of one character. -/
def utf8EncodeChar (c : Char) : List Nat :=
  let n := c.toNat
  if n ≤ 0x7F then [n]
  else if n ≤ 0x7FF then [0xC0 + n / 64, 0x80 + n % 64]
  else if n ≤ 0xFFFF then [0xE0 + n / 4096, 0x80 + (n / 64) % 64, 0x80 + n % 64]
  else [0xF0 + n / 262144, 0x80 + (n / 4096) % 64, 0x80 + (n / 64) % 64, 0x80 + n % 64]

/-- UTF-8 encoding of wire text, i.e. the byte stream the server sends. -/
def utf8Encode (s : Str) : List Nat := (s.map utf8EncodeChar).flatten

/-- `parse_sse_stream` at the byte level: each network chunk passes through
`String::from_utf8`; a chunk that fails validation is skipped silently
(`if let Ok(text) = ...` with no else branch). -/
def runSseStreamBytes (J : SerdeJson) (chunks : List (List Nat)) : List StreamEvent :=
  runSseStream J (chunks.filterMap utf8Decode)

/-- A well-formed two-line block: an `event:` line and a `data:` line, each
a single line, and the message-generation decoder accepts the block (its
payload is valid for its label, as with labels that never consult JSON). -/
def WellFormedBlock (J : SerdeJson) (b : Str) : Prop :=
  (∃ e d, b = eventKey ++ e ++ '\n' :: (dataKey ++ d) ∧ '\n' ∉ e ∧ '\n' ∉ d) ∧
  (parse_sse_message J b).isSome

-- ============================================================================
-- Read accessors used to state the store properties (`get_parts` etc.)
-- ============================================================================

/-- The part list kept for a message id (empty when the key is absent). -/
def partsOf (st : AppState) (message_id : String) : List Part :=
  (mapFind st.parts message_id).getD []

/-- The message list kept for a session id (empty when the key is absent). -/
def messagesOf (st : AppState) (session_id : String) : List Message :=
  (mapFind st.messages session_id).getD []

/-- The pending permission queue kept for a session id. -/
def permissionsOf (st : AppState) (session_id : String) : List PermissionRequest :=
  (mapFind st.permissions session_id).getD []

-- ============================================================================
-- Concrete fixtures for witnesses and counterexamples
-- ============================================================================

/-- A concrete text part. -/
def egPart (i m : String) : Part := { id := i, message_id := m, content := .text "x" }

/-- A concrete message with no parts. -/
def egMessage (i s : String) : Message :=
  { id := i, session_id := s, role := .user, time := { created := 0, completed := none },
    summary := none, agent := none, parts := [] }

/-- A concrete permission request. -/
def egPermission (i s p : String) : PermissionRequest :=
  { id := i, session_id := s, permission := p, patterns := [], metadata := ⟨"null"⟩,
    always := [], tool := none }

/-- A concrete deserializer bundle whose JSON parses all fail; the claims
exercised with it never reach a JSON-parsing arm. -/
def egJson : SerdeJson :=
  { toolCallFromJson := fun _ => none, toolCallResultFromJson := fun _ => none,
    messageFromJson := fun _ => none, sessionWrapperFromJson := fun _ => none,
    sessionFromJson := fun _ => none, sessionDeletedFromJson := fun _ => none,
    sessionStatusFromJson := fun _ => none, messageWrapperFromJson := fun _ => none,
    messageRemovedFromJson := fun _ => none, partWrapperFromJson := fun _ => none,
    partRemovedFromJson := fun _ => none, permissionRequestFromJson := fun _ => none,
    permissionRepliedFromJson := fun _ => none, questionRequestFromJson := fun _ => none,
    questionRepliedFromJson := fun _ => none, connectionStatusFromJson := fun _ => none }

-- ============================================================================
-- Groundwork lemmas
-- ============================================================================

theorem splitFirstNL_length : ∀ {s : Str} {pr : Str × Str},
    splitFirstNL s = some pr → pr.2.length < s.length := by
  intro s
  induction s with
  | nil => intro pr h; simp [splitFirstNL] at h
  | cons c rest ih =>
    intro pr h
    by_cases hc : c = '\n'
    · simp [splitFirstNL, hc] at h
      subst h
      simp
    · simp only [splitFirstNL, if_neg hc, Option.map_eq_some'] at h
      obtain ⟨pr', hpr', rfl⟩ := h
      have hlt := ih hpr'
      exact Nat.lt_trans hlt (by simp)

theorem linesFuel_stable : ∀ (f1 : Nat) (s : Str) (f2 : Nat),
    s.length ≤ f1 → s.length ≤ f2 → linesFuel f1 s = linesFuel f2 s := by
  intro f1
  induction f1 with
  | zero =>
    intro s f2 h1 _
    have hs : s = [] := List.eq_nil_of_length_eq_zero (Nat.le_zero.mp h1)
    subst hs
    cases f2 <;> simp [linesFuel, splitFirstNL]
  | succ f ih =>
    intro s f2 h1 h2
    match f2 with
    | 0 =>
      have hs : s = [] := List.eq_nil_of_length_eq_zero (Nat.le_zero.mp h2)
      subst hs
      simp [linesFuel, splitFirstNL]
    | f2' + 1 =>
      match hsp : splitFirstNL s with
      | none => simp [linesFuel, hsp]
      | some pr =>
        have hlen := splitFirstNL_length hsp
        have heq := ih pr.2 f2' (by omega) (by omega)
        simp [linesFuel, hsp, heq]

/-- The defining unfolding of `rustLines`. -/
theorem rustLines_eq (s : Str) :
    rustLines s =
      match splitFirstNL s with
      | none => if s.isEmpty then [] else [s]
      | some pr => stripCR pr.1 :: rustLines pr.2 := by
  match s with
  | [] => rfl
  | c :: s' =>
    show linesFuel (c :: s').length (c :: s') = _
    match hsp : splitFirstNL (c :: s') with
    | none => simp [linesFuel, hsp]
    | some pr =>
      have hlen := splitFirstNL_length hsp
      simp only [List.length_cons] at hlen
      have heq := linesFuel_stable s'.length pr.2 pr.2.length (by omega) (le_refl _)
      simp [linesFuel, hsp, heq, rustLines]

theorem findBreak_length : ∀ {s : Str} {pr : Str × Str},
    findBreak s = some pr → pr.2.length < s.length := by
  intro s
  induction s with
  | nil => intro pr h; simp [findBreak] at h
  | cons a rest ih =>
    intro pr h
    match rest, h with
    | [], h => simp [findBreak] at h
    | b :: rest2, h =>
      by_cases hab : a = '\n' ∧ b = '\n'
      · simp [findBreak, hab] at h
        subst h
        simp only [List.length_cons, List.length_nil]
        omega
      · simp only [findBreak, if_neg hab, Option.map_eq_some'] at h
        obtain ⟨pr', hpr', rfl⟩ := h
        have hlt := ih hpr'
        exact Nat.lt_trans hlt (by simp)

theorem drainFuel_stable : ∀ (f1 : Nat) (s : Str) (f2 : Nat),
    s.length ≤ f1 → s.length ≤ f2 → drainFuel f1 s = drainFuel f2 s := by
  intro f1
  induction f1 with
  | zero =>
    intro s f2 h1 _
    have hs : s = [] := List.eq_nil_of_length_eq_zero (Nat.le_zero.mp h1)
    subst hs
    cases f2 <;> simp [drainFuel, findBreak]
  | succ f ih =>
    intro s f2 h1 h2
    match f2 with
    | 0 =>
      have hs : s = [] := List.eq_nil_of_length_eq_zero (Nat.le_zero.mp h2)
      subst hs
      simp [drainFuel, findBreak]
    | f2' + 1 =>
      match hsp : findBreak s with
      | none => simp [drainFuel, hsp]
      | some pr =>
        have hlen := findBreak_length hsp
        have heq := ih pr.2 f2' (by omega) (by omega)
        simp [drainFuel, hsp, heq]

/-- The defining unfolding of `extractBlocks`. -/
theorem extractBlocks_eq (s : Str) :
    extractBlocks s =
      match findBreak s with
      | none => ([], s)
      | some pr =>
        let out := extractBlocks pr.2
        (pr.1 :: out.1, out.2) := by
  match s with
  | [] => rfl
  | c :: s' =>
    show drainFuel (c :: s').length (c :: s') = _
    match hsp : findBreak (c :: s') with
    | none => simp [drainFuel, hsp]
    | some pr =>
      have hlen := findBreak_length hsp
      simp only [List.length_cons] at hlen
      have heq := drainFuel_stable s'.length pr.2 pr.2.length (by omega) (le_refl _)
      simp [drainFuel, hsp, heq, extractBlocks]

theorem charsLt_cons (x y : Char) (xs ys : List Char) :
    charsLt (x :: xs) (y :: ys) = true ↔ x < y ∨ (x = y ∧ charsLt xs ys = true) := by
  by_cases hlt : x < y
  · simp [charsLt, hlt]
  · by_cases heq : x = y
    · simp [charsLt, hlt, heq]
    · simp [charsLt, hlt, heq]

theorem charsLt_irrefl : ∀ (a : List Char), charsLt a a = false := by
  intro a
  induction a with
  | nil => rfl
  | cons x xs ih => simp [charsLt, ih]

theorem charsLt_trans : ∀ {a b c : List Char},
    charsLt a b = true → charsLt b c = true → charsLt a c = true := by
  intro a
  induction a with
  | nil =>
    intro b c h1 h2
    match b, c with
    | [], _ => simp [charsLt] at h1
    | _ :: _, [] => simp [charsLt] at h2
    | _ :: _, _ :: _ => rfl
  | cons x xs ih =>
    intro b c h1 h2
    match b, c with
    | [], _ => simp [charsLt] at h1
    | _ :: _, [] => simp [charsLt] at h2
    | y :: ys, z :: zs =>
      rw [charsLt_cons] at h1 h2 ⊢
      rcases h1 with h1 | ⟨rfl, h1⟩
      · rcases h2 with h2 | ⟨rfl, _⟩
        · exact Or.inl (lt_trans h1 h2)
        · exact Or.inl h1
      · rcases h2 with h2 | ⟨rfl, h2⟩
        · exact Or.inl h2
        · exact Or.inr ⟨rfl, ih h1 h2⟩

theorem charsLt_total : ∀ {a b : List Char},
    a ≠ b → charsLt a b = false → charsLt b a = true := by
  intro a
  induction a with
  | nil =>
    intro b hne h
    match b with
    | [] => exact absurd rfl hne
    | _ :: _ => simp [charsLt] at h
  | cons x xs ih =>
    intro b hne h
    match b with
    | [] => rfl
    | y :: ys =>
      have h' : ¬ (x < y ∨ (x = y ∧ charsLt xs ys = true)) := by
        rw [← charsLt_cons]
        simp [h]
      push_neg at h'
      obtain ⟨hnlt, himp⟩ := h'
      rw [charsLt_cons]
      by_cases heq : x = y
      · subst heq
        have hxs : xs ≠ ys := fun hc => hne (by rw [hc])
        have hf : charsLt xs ys = false := by
          cases hcl : charsLt xs ys with
          | false => rfl
          | true => exact absurd hcl (himp rfl)
        exact Or.inr ⟨rfl, ih hxs hf⟩
      · rcases lt_trichotomy x y with hlt | hq | hgt
        · exact absurd hlt (not_lt.mpr hnlt)
        · exact absurd hq heq
        · exact Or.inl hgt

theorem strLt_irrefl (a : String) : strLt a a = false := charsLt_irrefl a.toList

theorem strLt_trans {a b c : String} (h1 : strLt a b = true) (h2 : strLt b c = true) :
    strLt a c = true := charsLt_trans h1 h2

theorem strLt_total {a b : String} (hne : a ≠ b) (h : strLt a b = false) : strLt b a = true :=
  charsLt_total (fun hc => hne (String.toList_inj.mp hc)) h

theorem strLt_ne {a b : String} (h : strLt a b = true) : a ≠ b := by
  intro hc
  subst hc
  rw [strLt_irrefl] at h
  exact Bool.false_ne_true h

-- ============================================================================
-- Sorted-upsert lemmas (shared by parts, permissions and questions)
-- ============================================================================

/-- The documented list invariant: elements strictly sorted by id. -/
def IdSorted {α : Type} (idOf : α → String) (l : List α) : Prop :=
  l.Pairwise (fun x y => strLt (idOf x) (idOf y) = true)

instance {α : Type} (idOf : α → String) (l : List α) : Decidable (IdSorted idOf l) :=
  inferInstanceAs (Decidable (l.Pairwise _))

theorem mem_replaceFirst {α : Type} {p : α → Bool} {v : α} :
    ∀ {l : List α} {a : α}, a ∈ replaceFirst p v l → a = v ∨ a ∈ l := by
  intro l
  induction l with
  | nil => intro a h; simp [replaceFirst] at h
  | cons x rest ih =>
    intro a h
    by_cases hx : p x
    · simp [replaceFirst, hx] at h
      rcases h with rfl | h
      · exact Or.inl rfl
      · exact Or.inr (List.mem_cons_of_mem _ h)
    · simp [replaceFirst, hx] at h
      rcases h with rfl | h
      · exact Or.inr (List.mem_cons_self _ _)
      · rcases ih h with h' | h'
        · exact Or.inl h'
        · exact Or.inr (List.mem_cons_of_mem _ h')

theorem self_mem_replaceFirst {α : Type} {p : α → Bool} {v : α} :
    ∀ {l : List α}, l.any p = true → v ∈ replaceFirst p v l := by
  intro l
  induction l with
  | nil => intro h; simp at h
  | cons x rest ih =>
    intro h
    cases hx : p x with
    | true => simp [replaceFirst, hx]
    | false =>
      rw [List.any_cons, hx, Bool.false_or] at h
      simp [replaceFirst, hx]
      exact Or.inr (ih h)

theorem map_replaceFirst {α : Type} (idOf : α → String) (v : α) :
    ∀ (l : List α),
      (replaceFirst (fun x => idOf x = idOf v) v l).map idOf = l.map idOf := by
  intro l
  induction l with
  | nil => rfl
  | cons x rest ih =>
    by_cases hx : idOf x = idOf v
    · simp [replaceFirst, hx]
    · simp [replaceFirst, hx, ih]

theorem mem_insertSortedById {α : Type} (idOf : α → String) (v : α) :
    ∀ {l : List α} {a : α}, a ∈ insertSortedById idOf v l ↔ a = v ∨ a ∈ l := by
  intro l
  induction l with
  | nil => intro a; simp [insertSortedById]
  | cons x rest ih =>
    intro a
    by_cases hlt : strLt (idOf v) (idOf x)
    · simp [insertSortedById, hlt]
    · simp [insertSortedById, hlt, ih]
      tauto

theorem insertSortedById_sorted {α : Type} (idOf : α → String) (v : α) :
    ∀ {l : List α}, IdSorted idOf l → (∀ x ∈ l, ¬ idOf x = idOf v) →
      IdSorted idOf (insertSortedById idOf v l) := by
  intro l
  induction l with
  | nil => intro _ _; simp [insertSortedById, IdSorted]
  | cons x rest ih =>
    intro hs hno
    rw [IdSorted, List.pairwise_cons] at hs
    obtain ⟨hx, hrest⟩ := hs
    cases hlt : strLt (idOf v) (idOf x) with
    | true =>
      have hstep : insertSortedById idOf v (x :: rest) = v :: x :: rest := by
        simp [insertSortedById, hlt]
      rw [hstep, IdSorted, List.pairwise_cons]
      constructor
      · intro y hy
        rcases List.mem_cons.mp hy with rfl | hy'
        · exact hlt
        · exact strLt_trans hlt (hx y hy')
      · rw [List.pairwise_cons]
        exact ⟨hx, hrest⟩
    | false =>
      have hstep : insertSortedById idOf v (x :: rest) = x :: insertSortedById idOf v rest := by
        simp [insertSortedById, hlt]
      rw [hstep, IdSorted, List.pairwise_cons]
      constructor
      · intro y hy
        rcases (mem_insertSortedById idOf v).mp hy with rfl | hy'
        · have hne : idOf x ≠ idOf y := hno x (List.mem_cons_self _ _)
          exact strLt_total (fun hc => hne hc.symm) hlt
        · exact hx y hy'
      · exact ih hrest (fun y hy => hno y (List.mem_cons_of_mem _ hy))

theorem idSorted_of_map_eq {α : Type} (idOf : α → String) :
    ∀ {l' l : List α}, l'.map idOf = l.map idOf → IdSorted idOf l → IdSorted idOf l' := by
  intro l'
  induction l' with
  | nil => intro l _ _; exact List.Pairwise.nil
  | cons x rest ih =>
    intro l hmap hs
    match l with
    | [] => simp at hmap
    | y :: lrest =>
      simp only [List.map_cons, List.cons.injEq] at hmap
      obtain ⟨hxy, hmap'⟩ := hmap
      rw [IdSorted, List.pairwise_cons] at hs ⊢
      obtain ⟨hy, hrest⟩ := hs
      constructor
      · intro z hz
        have hmem : idOf z ∈ lrest.map idOf := by
          rw [← hmap']
          exact List.mem_map_of_mem idOf hz
        obtain ⟨w, hw, hwz⟩ := List.mem_map.mp hmem
        rw [hxy, ← hwz]
        exact hy w hw
      · exact ih hmap' hrest

theorem mem_upsertById {α : Type} (idOf : α → String) (v : α) {l : List α} {a : α}
    (h : a ∈ upsertById idOf v l) : a = v ∨ a ∈ l := by
  rw [upsertById] at h
  by_cases hany : l.any (fun x => idOf x = idOf v) = true
  · rw [if_pos hany] at h
    exact mem_replaceFirst h
  · rw [if_neg hany] at h
    exact (mem_insertSortedById idOf v).mp h

theorem self_mem_upsertById {α : Type} (idOf : α → String) (v : α) (l : List α) :
    v ∈ upsertById idOf v l := by
  rw [upsertById]
  by_cases hany : l.any (fun x => idOf x = idOf v) = true
  · rw [if_pos hany]
    exact self_mem_replaceFirst hany
  · rw [if_neg hany]
    exact (mem_insertSortedById idOf v).mpr (Or.inl rfl)

theorem upsertById_sorted {α : Type} (idOf : α → String) (v : α) {l : List α}
    (hs : IdSorted idOf l) : IdSorted idOf (upsertById idOf v l) := by
  rw [upsertById]
  by_cases hany : l.any (fun x => idOf x = idOf v) = true
  · rw [if_pos hany]
    exact idSorted_of_map_eq idOf (map_replaceFirst idOf v l) hs
  · rw [if_neg hany]
    refine insertSortedById_sorted idOf v hs ?_
    intro x hx
    simp only [List.any_eq_true, decide_eq_true_eq] at hany
    exact fun hc => hany ⟨x, hx, hc⟩

theorem countP_eq_zero_of_no_id {α : Type} (idOf : α → String) (v : α) {l : List α}
    (h : ∀ x ∈ l, ¬ idOf x = idOf v) :
    l.countP (fun a => idOf a = idOf v) = 0 := by
  rw [List.countP_eq_zero]
  intro a ha
  simpa using h a ha

theorem head_id_not_in_tail {α : Type} (idOf : α → String) {x : α} {rest : List α}
    (hs : IdSorted idOf (x :: rest)) : ∀ y ∈ rest, ¬ idOf y = idOf x := by
  rw [IdSorted, List.pairwise_cons] at hs
  intro y hy hc
  exact strLt_ne (hs.1 y hy) hc.symm

theorem replaceFirst_countP {α : Type} (idOf : α → String) (v : α) :
    ∀ {l : List α}, IdSorted idOf l → l.any (fun x => idOf x = idOf v) = true →
      (replaceFirst (fun x => idOf x = idOf v) v l).countP (fun a => idOf a = idOf v) = 1 := by
  intro l
  induction l with
  | nil => intro _ h; simp at h
  | cons x rest ih =>
    intro hs hany
    by_cases hx : idOf x = idOf v
    · have hstep : replaceFirst (fun y => idOf y = idOf v) v (x :: rest) = v :: rest := by
        simp [replaceFirst, hx]
      rw [hstep, List.countP_cons]
      have hz : rest.countP (fun a => idOf a = idOf v) = 0 := by
        refine countP_eq_zero_of_no_id idOf v ?_
        intro y hy hc
        exact head_id_not_in_tail idOf hs y hy (hc.trans hx.symm)
      simp [hz]
    · have hstep : replaceFirst (fun y => idOf y = idOf v) v (x :: rest)
          = x :: replaceFirst (fun y => idOf y = idOf v) v rest := by
        simp [replaceFirst, hx]
      rw [hstep, List.countP_cons]
      have hrest : rest.any (fun y => idOf y = idOf v) = true := by
        rw [List.any_cons] at hany
        simpa [hx] using hany
      rw [IdSorted, List.pairwise_cons] at hs
      rw [ih hs.2 hrest]
      simp [hx]

theorem insertSortedById_countP {α : Type} (idOf : α → String) (v : α) :
    ∀ {l : List α}, (∀ x ∈ l, ¬ idOf x = idOf v) →
      (insertSortedById idOf v l).countP (fun a => idOf a = idOf v) = 1 := by
  intro l
  induction l with
  | nil => intro _; simp [insertSortedById]
  | cons x rest ih =>
    intro hno
    cases hlt : strLt (idOf v) (idOf x) with
    | true =>
      have hstep : insertSortedById idOf v (x :: rest) = v :: x :: rest := by
        simp [insertSortedById, hlt]
      rw [hstep, List.countP_cons, List.countP_cons]
      have hz : rest.countP (fun a => idOf a = idOf v) = 0 :=
        countP_eq_zero_of_no_id idOf v (fun y hy => hno y (List.mem_cons_of_mem _ hy))
      have hxne : ¬ idOf x = idOf v := hno x (List.mem_cons_self _ _)
      simp [hz, hxne]
    | false =>
      have hstep : insertSortedById idOf v (x :: rest) = x :: insertSortedById idOf v rest := by
        simp [insertSortedById, hlt]
      rw [hstep, List.countP_cons]
      have hxne : ¬ idOf x = idOf v := hno x (List.mem_cons_self _ _)
      rw [ih (fun y hy => hno y (List.mem_cons_of_mem _ hy))]
      simp [hxne]

theorem upsertById_countP {α : Type} (idOf : α → String) (v : α) {l : List α}
    (hs : IdSorted idOf l) :
    (upsertById idOf v l).countP (fun a => idOf a = idOf v) = 1 := by
  rw [upsertById]
  by_cases hany : l.any (fun x => idOf x = idOf v) = true
  · rw [if_pos hany]
    exact replaceFirst_countP idOf v hs hany
  · rw [if_neg hany]
    refine insertSortedById_countP idOf v ?_
    intro x hx
    simp only [List.any_eq_true, decide_eq_true_eq] at hany
    exact fun hc => hany ⟨x, hx, hc⟩

theorem upsertById_unique {α : Type} (idOf : α → String) (v : α) :
    ∀ {l : List α}, IdSorted idOf l →
      ∀ a ∈ upsertById idOf v l, idOf a = idOf v → a = v := by
  intro l
  induction l with
  | nil =>
    intro _ a ha _
    simp [upsertById, insertSortedById] at ha
    exact ha
  | cons x rest ih =>
    intro hs a ha hid
    rw [upsertById] at ha
    by_cases hany : (x :: rest).any (fun y => idOf y = idOf v) = true
    · rw [if_pos hany] at ha
      by_cases hx : idOf x = idOf v
      · have hstep : replaceFirst (fun y => idOf y = idOf v) v (x :: rest) = v :: rest := by
          simp [replaceFirst, hx]
        rw [hstep] at ha
        rcases List.mem_cons.mp ha with rfl | ha'
        · rfl
        · exact absurd (hid.trans hx.symm) (head_id_not_in_tail idOf hs a ha')
      · have hstep : replaceFirst (fun y => idOf y = idOf v) v (x :: rest)
            = x :: replaceFirst (fun y => idOf y = idOf v) v rest := by
          simp [replaceFirst, hx]
        rw [hstep] at ha
        rcases List.mem_cons.mp ha with rfl | ha'
        · exact absurd hid hx
        · have hrest : rest.any (fun y => idOf y = idOf v) = true := by
            rw [List.any_cons] at hany
            simpa [hx] using hany
          rw [IdSorted, List.pairwise_cons] at hs
          refine ih hs.2 a ?_ hid
          rw [upsertById, if_pos hrest]
          exact ha'
    · rw [if_neg hany] at ha
      rcases (mem_insertSortedById idOf v).mp ha with rfl | ha'
      · rfl
      · simp only [List.any_eq_true, decide_eq_true_eq] at hany
        exact absurd hid (fun hc => hany ⟨a, ha', hc⟩)

theorem mapFind_mapInsert_self {α : Type} : ∀ (m : SMap α) (k : String) (v : α),
    mapFind (mapInsert m k v) k = some v := by
  intro m k v
  induction m with
  | nil => simp [mapInsert, mapFind]
  | cons kv rest ih =>
    by_cases hk : kv.1 = k
    · simp [mapInsert, hk, mapFind]
    · simp [mapInsert, hk, mapFind, ih]

theorem mapFind_mapErase_self {α : Type} (m : SMap α) (k : String) :
    mapFind (mapErase m k) k = none := by
  induction m with
  | nil => rfl
  | cons kv rest ih =>
    by_cases hk : kv.1 = k
    · rw [mapErase, if_pos hk]
      exact ih
    · rw [mapErase, if_neg hk, mapFind, if_neg hk]
      exact ih

theorem mapFind_mapErase_ne {α : Type} (m : SMap α) (k k' : String) (h : ¬ k' = k) :
    mapFind (mapErase m k) k' = mapFind m k' := by
  induction m with
  | nil => rfl
  | cons kv rest ih =>
    by_cases hk : kv.1 = k
    · have hk' : ¬ kv.1 = k' := fun hc => h (by rw [← hc, hk])
      rw [mapErase, if_pos hk, mapFind, if_neg hk']
      exact ih
    · rw [mapErase, if_neg hk, mapFind, mapFind]
      by_cases hk2 : kv.1 = k'
      · rw [if_pos hk2, if_pos hk2]
      · rw [if_neg hk2, if_neg hk2]
        exact ih

theorem mapFind_mapModify_self {α : Type} :
    ∀ (m : SMap α) (k : String) (f : α → α) {v : α}, mapFind m k = some v →
      mapFind (mapModify m k f) k = some (f v) := by
  intro m k f
  induction m with
  | nil => intro v h; simp [mapFind] at h
  | cons kv rest ih =>
    intro v h
    by_cases hk : kv.1 = k
    · rw [mapFind, if_pos hk] at h
      rw [mapModify, if_pos hk, mapFind]
      simp only [Option.some.injEq] at h
      simp [hk, h]
    · rw [mapFind, if_neg hk] at h
      rw [mapModify, if_neg hk, mapFind, if_neg hk]
      exact ih h

theorem mapFind_mapModify_ne {α : Type} (m : SMap α) (k k' : String) (f : α → α)
    (h : ¬ k' = k) : mapFind (mapModify m k f) k' = mapFind m k' := by
  induction m with
  | nil => rfl
  | cons kv rest ih =>
    by_cases hk : kv.1 = k
    · have hk' : ¬ kv.1 = k' := fun hc => h (by rw [← hc, hk])
      rw [mapModify, if_pos hk, mapFind, mapFind, if_neg hk', if_neg hk']
    · by_cases hk2 : kv.1 = k'
      · rw [mapModify, if_neg hk, mapFind, if_pos hk2, mapFind, if_pos hk2]
      · rw [mapModify, if_neg hk, mapFind, if_neg hk2, mapFind, if_neg hk2]
        exact ih

theorem mapModify_eq_self {α : Type} :
    ∀ (m : SMap α) (k : String) (f : α → α),
      (∀ v, mapFind m k = some v → f v = v) → mapModify m k f = m := by
  intro m k f
  induction m with
  | nil => intro _; rfl
  | cons kv rest ih =>
    intro h
    by_cases hk : kv.1 = k
    · rw [mapModify, if_pos hk]
      have hv : f kv.2 = kv.2 := h kv.2 (by rw [mapFind, if_pos hk])
      rw [hv]
    · rw [mapModify, if_neg hk]
      have hrest := ih (fun v hv => h v (by rw [mapFind, if_neg hk]; exact hv))
      rw [hrest]

theorem chopFront_self_append : ∀ (p s : Str), chopFront p (p ++ s) = some s := by
  intro p s
  induction p with
  | nil => rfl
  | cons c cs ih => simp [chopFront, ih]

theorem splitFirstNL_no_nl : ∀ {s : Str}, '\n' ∉ s → splitFirstNL s = none := by
  intro s
  induction s with
  | nil => intro _; rfl
  | cons c cs ih =>
    intro h
    have hc : ¬ c = '\n' := fun hceq => h (by rw [← hceq]; exact List.mem_cons_self _ _)
    rw [splitFirstNL, if_neg hc, ih (fun hm => h (List.mem_cons_of_mem _ hm))]
    rfl

theorem splitFirstNL_append : ∀ {a : Str} (b : Str), '\n' ∉ a →
    splitFirstNL (a ++ '\n' :: b) = some (a, b) := by
  intro a
  induction a with
  | nil => intro b _; simp [splitFirstNL]
  | cons c cs ih =>
    intro b h
    have hc : ¬ c = '\n' := fun hceq => h (by rw [← hceq]; exact List.mem_cons_self _ _)
    rw [List.cons_append, splitFirstNL, if_neg hc, ih b (fun hm => h (List.mem_cons_of_mem _ hm))]
    rfl

theorem rustLines_single {s : Str} (hnl : '\n' ∉ s) (hne : s ≠ []) : rustLines s = [s] := by
  have hie : s.isEmpty = false := by
    cases s with
    | nil => exact absurd rfl hne
    | cons _ _ => rfl
  rw [rustLines_eq, splitFirstNL_no_nl hnl]
  simp [hie]

theorem rustLines_append_nl {a : Str} (b : Str) (hnl : '\n' ∉ a) :
    rustLines (a ++ '\n' :: b) = stripCR a :: rustLines b := by
  rw [rustLines_eq, splitFirstNL_append b hnl]

theorem stripCR_append (p l : Str) (hp : ¬ p.getLast? = some '\r') :
    stripCR (p ++ l) = p ++ stripCR l := by
  cases l with
  | nil => simp [stripCR, hp]
  | cons c cs =>
    have hgl : (p ++ c :: cs).getLast? = (c :: cs).getLast? :=
      List.getLast?_append_of_ne_nil _ (by simp)
    rw [stripCR, stripCR, hgl]
    by_cases hc : (c :: cs).getLast? = some '\r'
    · rw [if_pos hc, if_pos hc, List.dropLast_append_cons]
    · rw [if_neg hc, if_neg hc]

theorem trimRight_dropLast {x : Str} {c : Char} (hgl : x.getLast? = some c)
    (hws : isWsChar c = true) : trimRight x.dropLast = trimRight x := by
  have hne : x ≠ [] := by
    intro h0
    rw [h0] at hgl
    simp at hgl
  have hcval : x.getLast hne = c := by
    have hq := List.getLast?_eq_getLast x hne
    rw [hq] at hgl
    injection hgl
  have hsplit : x.dropLast ++ [c] = x := by
    rw [← hcval]
    exact List.dropLast_append_getLast hne
  have hstep : trimRight (x.dropLast ++ [c]) = trimRight x.dropLast := by
    rw [trimRight, trimRight, List.reverse_append]
    simp [List.dropWhile_cons, hws]
  rw [← hstep, hsplit]

theorem trimStr_stripCR (x : Str) : trimStr (stripCR x) = trimStr x := by
  rw [stripCR]
  by_cases hx : x.getLast? = some '\r'
  · rw [if_pos hx, trimStr, trimStr, trimRight_dropLast hx (by decide)]
  · rw [if_neg hx]

theorem scanBlock_data_only (payload : Str) :
    scanBlock [dataKey ++ payload] = (none, some (trimStr payload)) := by
  have h1 : chopFront eventKey (dataKey ++ payload) = none := rfl
  have h2 : chopFront dataKey (dataKey ++ payload) = some payload := chopFront_self_append _ _
  simp [scanBlock, h1, h2]

theorem scanBlock_event_data (x payload : Str) :
    scanBlock [eventKey ++ x, dataKey ++ payload]
      = (some (trimStr x), some (trimStr payload)) := by
  have h1 : chopFront eventKey (eventKey ++ x) = some x := chopFront_self_append _ _
  have h2 : chopFront eventKey (dataKey ++ payload) = none := rfl
  have h3 : chopFront dataKey (dataKey ++ payload) = some payload := chopFront_self_append _ _
  simp [scanBlock, h1, h2, h3]

theorem parse_sse_message_content (J : SerdeJson) {message : Str} {et : Option Str} {d : Str}
    (hscan : scanBlock (rustLines message) = (et, some d))
    (hunk : ∀ l ∈ msgLabels, ¬ et.getD "message".toList = l) :
    parse_sse_message J message = some (.content d) := by
  have h1 := hunk "content".toList (by simp [msgLabels])
  have h2 := hunk "text".toList (by simp [msgLabels])
  have h3 := hunk "tool_call_start".toList (by simp [msgLabels])
  have h4 := hunk "tool_call_end".toList (by simp [msgLabels])
  have h5 := hunk "reasoning".toList (by simp [msgLabels])
  have h6 := hunk "done".toList (by simp [msgLabels])
  have h7 := hunk "end".toList (by simp [msgLabels])
  have h8 := hunk "error".toList (by simp [msgLabels])
  simp only [parse_sse_message, hscan]
  rw [if_neg (fun hc => hc.elim h1 h2), if_neg h3, if_neg h4, if_neg h5,
    if_neg (fun hc => hc.elim h6 h7), if_neg h8]

theorem parse_daemon_none_of_no_label (J : SerdeJson) {message : Str} {d : Str}
    (hscan : scanBlock (rustLines message) = (none, some d)) :
    parse_daemon_event_message J message = none := by
  simp [parse_daemon_event_message, hscan]

theorem parse_daemon_none_of_unknown (J : SerdeJson) {message : Str} {et d : Str}
    (hscan : scanBlock (rustLines message) = (some et, some d))
    (hunk : et ∉ daemonLabels) :
    parse_daemon_event_message J message = none := by
  rw [daemonLabels] at hunk
  simp only [List.mem_cons, List.not_mem_nil, or_false] at hunk
  push_neg at hunk
  obtain ⟨g1, g2, g3, g4, g5, g6, g7, g8, g9, g10, g11, g12, g13, g14, g15, g16⟩ := hunk
  simp only [parse_daemon_event_message, hscan]
  rw [if_neg (fun hc => hc.elim g1 g2), if_neg g3, if_neg g4, if_neg g5, if_neg g6,
    if_neg g7, if_neg g8, if_neg g9, if_neg g10, if_neg g11, if_neg g12,
    if_neg (fun hc => hc.elim g13 g14), if_neg g15, if_neg g16]

theorem findBreak_append_some : ∀ {s : Str} {pr : Str × Str}, findBreak s = some pr →
    ∀ (t : Str), findBreak (s ++ t) = some (pr.1, pr.2 ++ t) := by
  intro s
  induction s with
  | nil => intro pr h t; simp [findBreak] at h
  | cons a rest ih =>
    intro pr h t
    match rest, h with
    | [], h => simp [findBreak] at h
    | b :: rest2, h =>
      by_cases hab : a = '\n' ∧ b = '\n'
      · simp [findBreak, hab] at h
        subst h
        simp [findBreak, hab]
      · simp only [findBreak, if_neg hab, Option.map_eq_some'] at h
        obtain ⟨pr', hpr', rfl⟩ := h
        have hstep := ih hpr' t
        simp only [List.cons_append]
        rw [show findBreak (a :: b :: (rest2 ++ t))
            = (findBreak (b :: (rest2 ++ t))).map (fun pq => (a :: pq.1, pq.2)) from by
          simp [findBreak, hab]]
        rw [show b :: (rest2 ++ t) = (b :: rest2) ++ t from rfl, hstep]
        rfl

theorem extractBlocks_append : ∀ (n : Nat) (s : Str), s.length ≤ n → ∀ (t : Str),
    extractBlocks (s ++ t)
      = ((extractBlocks s).1 ++ (extractBlocks ((extractBlocks s).2 ++ t)).1,
         (extractBlocks ((extractBlocks s).2 ++ t)).2) := by
  intro n
  induction n with
  | zero =>
    intro s hs t
    have hnil : s = [] := List.eq_nil_of_length_eq_zero (Nat.le_zero.mp hs)
    subst hnil
    simp [extractBlocks, drainFuel]
  | succ n ih =>
    intro s hs t
    cases hfb : findBreak s with
    | none =>
      have he : extractBlocks s = ([], s) := by
        conv_lhs => rw [extractBlocks_eq]
        rw [hfb]
      rw [he]
      simp
    | some pr =>
      have he : extractBlocks s
          = (pr.1 :: (extractBlocks pr.2).1, (extractBlocks pr.2).2) := by
        conv_lhs => rw [extractBlocks_eq]
        rw [hfb]
      have hfb2 := findBreak_append_some hfb t
      have he2 : extractBlocks (s ++ t)
          = (pr.1 :: (extractBlocks (pr.2 ++ t)).1, (extractBlocks (pr.2 ++ t)).2) := by
        conv_lhs => rw [extractBlocks_eq]
        rw [hfb2]
      have hlen := findBreak_length hfb
      have hih := ih pr.2 (by omega) t
      rw [he2, hih, he]
      simp

theorem extractBlocks_append_all (s t : Str) :
    extractBlocks (s ++ t)
      = ((extractBlocks s).1 ++ (extractBlocks ((extractBlocks s).2 ++ t)).1,
         (extractBlocks ((extractBlocks s).2 ++ t)).2) :=
  extractBlocks_append s.length s (le_refl _) t

theorem findBreak_extract_rem : ∀ (n : Nat) (s : Str), s.length ≤ n →
    findBreak (extractBlocks s).2 = none := by
  intro n
  induction n with
  | zero =>
    intro s hs
    have hnil : s = [] := List.eq_nil_of_length_eq_zero (Nat.le_zero.mp hs)
    subst hnil
    rfl
  | succ n ih =>
    intro s hs
    cases hfb : findBreak s with
    | none =>
      have he : extractBlocks s = ([], s) := by
        conv_lhs => rw [extractBlocks_eq]
        rw [hfb]
      rw [he]
      exact hfb
    | some pr =>
      have he : extractBlocks s
          = (pr.1 :: (extractBlocks pr.2).1, (extractBlocks pr.2).2) := by
        conv_lhs => rw [extractBlocks_eq]
        rw [hfb]
      rw [he]
      have hlen := findBreak_length hfb
      exact ih pr.2 (by omega)

theorem findBreak_extract_rem_all (s : Str) : findBreak (extractBlocks s).2 = none :=
  findBreak_extract_rem s.length s (le_refl _)

theorem foldl_feedChunk (J : SerdeJson) : ∀ (chunks : List Str) (evs : List StreamEvent)
    (buf : Str), findBreak buf = none →
    chunks.foldl (feedChunk J) (evs, buf)
      = (evs ++ (extractBlocks (buf ++ chunks.flatten)).1.filterMap (parse_sse_message J),
         (extractBlocks (buf ++ chunks.flatten)).2) := by
  intro chunks
  induction chunks with
  | nil =>
    intro evs buf hnb
    have he : extractBlocks buf = ([], buf) := by
      conv_lhs => rw [extractBlocks_eq]
      rw [hnb]
    simp [he]
  | cons c rest ih =>
    intro evs buf hnb
    rw [List.foldl_cons]
    have hstep : feedChunk J (evs, buf) c
        = (evs ++ (extractBlocks (buf ++ c)).1.filterMap (parse_sse_message J),
           (extractBlocks (buf ++ c)).2) := rfl
    rw [hstep, ih _ _ (findBreak_extract_rem_all (buf ++ c))]
    have happ := extractBlocks_append_all (buf ++ c) rest.flatten
    rw [List.flatten_cons, ← List.append_assoc, happ]
    simp [List.filterMap_append, List.append_assoc]

theorem findBreak_cons₂ {a b : Char} (rest : Str) (h : ¬ (a = '\n' ∧ b = '\n')) :
    findBreak (a :: b :: rest) = (findBreak (b :: rest)).map (fun pq => (a :: pq.1, pq.2)) := by
  simp only [findBreak, if_neg h]

theorem findBreak_nl_cons {t : Str} (hh : ¬ t.head? = some '\n') :
    findBreak ('\n' :: t) = (findBreak t).map (fun pq => ('\n' :: pq.1, pq.2)) := by
  cases t with
  | nil => rfl
  | cons c t' =>
    have hc : ¬ c = '\n' := fun hceq => hh (by rw [hceq]; rfl)
    exact findBreak_cons₂ t' (fun hp => hc hp.2)

theorem findBreak_isolated_nl : ∀ {a : Str}, '\n' ∉ a → ∀ {t : Str},
    ¬ t.head? = some '\n' →
    findBreak (a ++ '\n' :: t) = (findBreak t).map (fun pq => (a ++ '\n' :: pq.1, pq.2)) := by
  intro a
  induction a with
  | nil =>
    intro _ t hh
    simpa using findBreak_nl_cons hh
  | cons c cs ih =>
    intro ha t hh
    have hc : ¬ c = '\n' := fun hceq => ha (by rw [← hceq]; exact List.mem_cons_self _ _)
    have hcs : '\n' ∉ cs := fun hm => ha (List.mem_cons_of_mem _ hm)
    rw [List.cons_append]
    cases hX : cs ++ '\n' :: t with
    | nil => exact absurd hX (by simp)
    | cons x2 X' =>
      rw [findBreak_cons₂ X' (fun hp => hc hp.1), ← hX, ih hcs hh, Option.map_map]
      rfl

theorem findBreak_block_sep : ∀ {b : Str}, findBreak (b ++ ['\n']) = none → ∀ (rest : Str),
    findBreak (b ++ '\n' :: '\n' :: rest) = some (b, rest) := by
  intro b
  induction b with
  | nil => intro _ rest; rfl
  | cons c cs ih =>
    intro hb rest
    simp only [List.cons_append] at hb ⊢
    cases hcs : cs with
    | nil =>
      subst hcs
      simp only [List.nil_append] at hb ⊢
      have hc : ¬ c = '\n' := by
        intro hceq
        subst hceq
        exact absurd hb (by decide)
      rw [findBreak_cons₂ _ (fun hp => hc hp.1)]
      rfl
    | cons c2 cs2 =>
      subst hcs
      simp only [List.cons_append] at hb ⊢
      have hcc : ¬ (c = '\n' ∧ c2 = '\n') := by
        intro hp
        obtain ⟨h1, h2⟩ := hp
        subst h1
        subst h2
        rw [show findBreak ('\n' :: '\n' :: (cs2 ++ ['\n'])) = some ([], cs2 ++ ['\n']) from rfl]
          at hb
        exact Option.noConfusion hb
      have hb2 : findBreak (c2 :: (cs2 ++ ['\n'])) = none := by
        rw [findBreak_cons₂ _ hcc] at hb
        cases hfb : findBreak (c2 :: (cs2 ++ ['\n'])) with
        | none => rfl
        | some pr => rw [hfb] at hb; exact Option.noConfusion hb
      have hih := ih (by simpa only [List.cons_append] using hb2) rest
      simp only [List.cons_append] at hih
      rw [findBreak_cons₂ _ hcc, hih]
      rfl

theorem sseJoin_cons (b : Str) {bs : List Str} (h : bs ≠ []) :
    sseJoin (b :: bs) = b ++ '\n' :: '\n' :: sseJoin bs := by
  cases bs with
  | nil => exact absurd rfl h
  | cons b2 bs2 => rfl

theorem extractBlocks_sseJoin : ∀ (front : List Str) (last : Str),
    (∀ x ∈ front ++ [last], findBreak (x ++ ['\n']) = none) →
    extractBlocks (sseJoin (front ++ [last])) = (front, last) := by
  intro front
  induction front with
  | nil =>
    intro last h
    have hlast : findBreak (last ++ ['\n']) = none := h last (by simp)
    have hnb : findBreak last = none := by
      cases hfb : findBreak last with
      | none => rfl
      | some pr =>
        rw [findBreak_append_some hfb ['\n']] at hlast
        exact absurd hlast (by simp)
    show extractBlocks (sseJoin [last]) = ([], last)
    rw [show sseJoin [last] = last from rfl]
    conv_lhs => rw [extractBlocks_eq]
    rw [hnb]
  | cons b front' ih =>
    intro last h
    have hb : findBreak (b ++ ['\n']) = none := h b (by simp)
    rw [List.cons_append, sseJoin_cons b (by simp)]
    have hfb := findBreak_block_sep hb (sseJoin (front' ++ [last]))
    have hstep : extractBlocks (b ++ '\n' :: '\n' :: sseJoin (front' ++ [last]))
        = (b :: (extractBlocks (sseJoin (front' ++ [last]))).1,
           (extractBlocks (sseJoin (front' ++ [last]))).2) := by
      conv_lhs => rw [extractBlocks_eq]
      rw [hfb]
    rw [hstep, ih last (fun x hx => h x (List.mem_cons_of_mem _ hx))]

theorem length_filterMap_of_isSome {α β : Type} (f : α → Option β) :
    ∀ {l : List α}, (∀ x ∈ l, (f x).isSome) → (l.filterMap f).length = l.length := by
  intro l
  induction l with
  | nil => intro _; rfl
  | cons x rest ih =>
    intro h
    have hx := h x (List.mem_cons_self _ _)
    cases hfx : f x with
    | none => rw [hfx] at hx; simp at hx
    | some y =>
      rw [List.filterMap_cons, hfx]
      simp only [List.length_cons]
      rw [ih (fun z hz => h z (List.mem_cons_of_mem _ hz))]

theorem wellFormedBlock_shape {J : SerdeJson} {b : Str} (hwf : WellFormedBlock J b) :
    findBreak (b ++ ['\n']) = none ∧ b ≠ [] := by
  obtain ⟨⟨e, d, rfl, he, hd⟩, _⟩ := hwf
  have hnlEe : '\n' ∉ eventKey ++ e := by
    intro hm
    rcases List.mem_append.mp hm with hm | hm
    · exact absurd hm (by decide)
    · exact he hm
  have hnlDd : '\n' ∉ dataKey ++ d := by
    intro hm
    rcases List.mem_append.mp hm with hm | hm
    · exact absurd hm (by decide)
    · exact hd hm
  constructor
  · have hsh : (eventKey ++ e ++ '\n' :: (dataKey ++ d)) ++ ['\n']
        = (eventKey ++ e) ++ '\n' :: ((dataKey ++ d) ++ ['\n']) := by
      simp [List.append_assoc]
    rw [hsh]
    have hhead : ¬ ((dataKey ++ d) ++ ['\n']).head? = some '\n' := by
      rw [show dataKey = 'd' :: "ata:".toList from rfl]
      simp
    rw [findBreak_isolated_nl hnlEe hhead]
    rw [show (dataKey ++ d) ++ ['\n'] = (dataKey ++ d) ++ '\n' :: [] from rfl]
    rw [findBreak_isolated_nl hnlDd (by simp)]
    rfl
  · rw [show eventKey = 'e' :: "vent:".toList from rfl]
    simp

-- ============================================================================
-- Claims
-- ============================================================================

/-- C2 (counterexample): chunk-boundary independence fails at the byte
level. The single well-formed block `event: content\ndata: é` decodes to
one event when its UTF-8 bytes arrive in one chunk, but splitting the same
byte sequence inside the two-byte encoding of `é` makes both chunks fail
the per-chunk `String::from_utf8` validation, so both are dropped and zero
events are decoded. -/
theorem c2_counterexample :
    WellFormedBlock egJson "event: content\ndata: é".toList ∧
    (utf8Encode "event: content\ndata: ".toList ++ [0xC3]) ++ [0xA9]
      = utf8Encode (sseJoin ["event: content\ndata: é".toList]) ∧
    runSseStreamBytes egJson
        [utf8Encode "event: content\ndata: ".toList ++ [0xC3], [0xA9]] = [] ∧
    runSseStreamBytes egJson [utf8Encode (sseJoin ["event: content\ndata: é".toList])]
      = [.content "é".toList] :=
  ⟨⟨⟨" content".toList, " é".toList, by decide, by decide, by decide⟩, by decide⟩,
    by decide, by decide, by decide⟩

/-- C2 (amended): chunk-boundary independence does hold for every chunking
at character boundaries (each chunk valid UTF-8): for any list of
well-formed blocks, decoding any chunk list whose concatenation is the
`"\n\n"`-separated wire text yields exactly one event per block, in block
order. -/
theorem c2_chunk_independence (J : SerdeJson) (blocks : List Str) (chunks : List Str)
    (hwf : ∀ b ∈ blocks, WellFormedBlock J b)
    (hchunks : chunks.flatten = sseJoin blocks) :
    runSseStream J chunks = blocks.filterMap (parse_sse_message J) ∧
    (runSseStream J chunks).length = blocks.length := by
  have hfold := foldl_feedChunk J chunks [] [] rfl
  simp only [List.nil_append] at hfold
  rw [hchunks] at hfold
  have hrun : runSseStream J chunks
      = (extractBlocks (sseJoin blocks)).1.filterMap (parse_sse_message J)
        ++ (if (extractBlocks (sseJoin blocks)).2.isEmpty then []
            else (parse_sse_message J (extractBlocks (sseJoin blocks)).2).toList) := by
    simp only [runSseStream]
    rw [hfold]
    by_cases hie : (extractBlocks (sseJoin blocks)).2.isEmpty
    · simp [hie]
    · simp [hie]
  cases blocks with
  | nil =>
    rw [hrun]
    simp [show extractBlocks (sseJoin ([] : List Str)) = ([], []) from rfl]
  | cons b bs =>
    have hne : b :: bs ≠ [] := by simp
    obtain ⟨front, last, hfl⟩ : ∃ front last, b :: bs = front ++ [last] :=
      ⟨(b :: bs).dropLast, (b :: bs).getLast hne, (List.dropLast_append_getLast hne).symm⟩
    rw [hfl] at hrun hwf ⊢
    have hext : extractBlocks (sseJoin (front ++ [last])) = (front, last) :=
      extractBlocks_sseJoin front last (fun x hx => (wellFormedBlock_shape (hwf x hx)).1)
    have hlast_wf := hwf last (by simp)
    have hlast_ne : last ≠ [] := (wellFormedBlock_shape hlast_wf).2
    have hie : last.isEmpty = false := by
      cases last with
      | nil => exact absurd rfl hlast_ne
      | cons _ _ => rfl
    rw [hext] at hrun
    simp only [hie, Bool.false_eq_true, if_false] at hrun
    have hsome : (parse_sse_message J last).isSome := hlast_wf.2
    have hfm : (parse_sse_message J last).toList = [last].filterMap (parse_sse_message J) := by
      cases hp : parse_sse_message J last with
      | none => rw [hp] at hsome; exact absurd hsome (by simp)
      | some e => simp [hp]
    have hmain : runSseStream J chunks = (front ++ [last]).filterMap (parse_sse_message J) := by
      rw [hrun, hfm, List.filterMap_append]
    refine ⟨hmain, ?_⟩
    rw [hmain]
    exact length_filterMap_of_isSome _ (fun x hx => (hwf x hx).2)

theorem c2_witness :
    runSseStream egJson
        ["event: content\ndata: a\n\nev".toList, "ent: content\ndata: b".toList]
      = ["event: content\ndata: a".toList, "event: content\ndata: b".toList].filterMap
          (parse_sse_message egJson) ∧
    (runSseStream egJson
        ["event: content\ndata: a\n\nev".toList, "ent: content\ndata: b".toList]).length
      = ["event: content\ndata: a".toList, "event: content\ndata: b".toList].length :=
  c2_chunk_independence egJson
    ["event: content\ndata: a".toList, "event: content\ndata: b".toList]
    ["event: content\ndata: a\n\nev".toList, "ent: content\ndata: b".toList]
    (by
      intro x hx
      simp only [List.mem_cons, List.not_mem_nil, or_false] at hx
      rcases hx with rfl | rfl
      · exact ⟨⟨" content".toList, " a".toList, by decide, by decide, by decide⟩, by decide⟩
      · exact ⟨⟨" content".toList, " b".toList, by decide, by decide, by decide⟩, by decide⟩)
    (by decide)

/-- C1 (counterexample): applying `session.created` twice for the same id
`"a"` to the empty store leaves TWO sessions with id `"a"` — `add_session`
prepends unconditionally, so the claimed at-most-one-per-id upsert fails. -/
theorem c1_counterexample :
    ((handle_event
        (.sessionCreated { id := "a", title := some "second", created_at := 1, updated_at := 1,
                           agent := none, model := none, message_count := 0 })
        (handle_event
          (.sessionCreated { id := "a", title := some "first", created_at := 0, updated_at := 0,
                             agent := none, model := none, message_count := 0 })
          AppState.default)).sessions.countP (fun s => s.id = "a")) = 2 := by decide

/-- C1 (amended): `session.created` prepends the carried session to the
sessions list unconditionally, with no id-based deduplication; a duplicate
`session.created` therefore yields a second entry with the same id. -/
theorem c1_session_created_prepends (st : AppState) (session : Session) :
    (handle_event (.sessionCreated session) st).sessions = session :: st.sessions := rfl

/-- C3 (counterexample): applying `session.updated` for a session whose id
is absent leaves the store completely unchanged — nothing is inserted,
contrary to the claimed upsert semantics. -/
theorem c3_counterexample :
    handle_event
        (.sessionUpdated { id := "a", title := some "t", created_at := 0, updated_at := 0,
                           agent := none, model := none, message_count := 0 })
        AppState.default
      = AppState.default := by decide

/-- C3 (amended): `session.updated` replaces the existing session with a
matching id in place, and is a no-op (the whole store is unchanged) when no
session with that id exists. -/
theorem c3_session_updated_noop_when_absent (st : AppState) (session : Session)
    (habs : ∀ t ∈ st.sessions, ¬ t.id = session.id) :
    handle_event (.sessionUpdated session) st = st := by
  show update_session st session = st
  rw [update_session, if_neg]
  intro hc
  simp only [List.any_eq_true, decide_eq_true_eq] at hc
  obtain ⟨t, ht, hid⟩ := hc
  exact habs t ht hid

theorem c3_witness :
    handle_event
        (.sessionUpdated { id := "b", title := none, created_at := 0, updated_at := 0,
                           agent := none, model := none, message_count := 0 })
        AppState.default
      = AppState.default :=
  c3_session_updated_noop_when_absent AppState.default _ (by decide)

/-- C4: with the first three connection attempts failing and the fourth
succeeding, the waits before attempts 2-4 are `floor`, `2*floor` and
`4*floor` (all within the 30s ceiling), the connectivity flag is `false`
after each failed attempt and becomes `true` exactly when the fourth
attempt succeeds, and the retry delay is reset to the floor then. -/
theorem c4_reconnect_backoff_scenario :
    runRetryScenario AppState.default floorDelayMs 3
      = ({ AppState.default with connected := true }, floorDelayMs,
         [floorDelayMs, 2 * floorDelayMs, 4 * floorDelayMs],
         [false, false, false, true])
    ∧ floorDelayMs ≤ maxRetryDelayMs
    ∧ 2 * floorDelayMs ≤ maxRetryDelayMs
    ∧ 4 * floorDelayMs ≤ maxRetryDelayMs := by decide

/-- C5: concrete part: applying `message.part.updated` for part id `"p2"`
then `"p1"` of message `"m"` to a store holding no parts for `"m"` yields
the id list `["p1", "p2"]`. General part: `update_part` preserves strict
id-sortedness of a message's part list, the new part is present, every
element of the new list is the new part or an old element (no blind
append), and when the id already existed the id sequence is unchanged
(replace in place). -/
theorem c5_part_sorted_upsert :
    ((partsOf (update_part (update_part AppState.default (egPart "p2" "m")) (egPart "p1" "m"))
        "m").map Part.id = ["p1", "p2"]) ∧
    ∀ (st : AppState) (part : Part),
      IdSorted Part.id (partsOf st part.message_id) →
      IdSorted Part.id (partsOf (update_part st part) part.message_id) ∧
      part ∈ partsOf (update_part st part) part.message_id ∧
      (∀ q ∈ partsOf (update_part st part) part.message_id,
        q = part ∨ q ∈ partsOf st part.message_id) ∧
      ((partsOf st part.message_id).any (fun p => p.id = part.id) = true →
        (partsOf (update_part st part) part.message_id).map Part.id
          = (partsOf st part.message_id).map Part.id) := by
  constructor
  · decide
  · intro st part hs
    have hup : partsOf (update_part st part) part.message_id
        = upsertById Part.id part (partsOf st part.message_id) := by
      simp [partsOf, update_part, mapFind_mapInsert_self]
    rw [hup]
    refine ⟨upsertById_sorted Part.id part hs, self_mem_upsertById Part.id part _,
      fun q hq => mem_upsertById Part.id part hq, ?_⟩
    intro hany
    rw [upsertById, if_pos hany]
    exact map_replaceFirst Part.id part _

theorem c5_witness :
    IdSorted Part.id
      (partsOf { AppState.default with parts := [("m", [egPart "p1" "m", egPart "p3" "m"])] } "m") ∧
    (IdSorted Part.id
      (partsOf (update_part
        { AppState.default with parts := [("m", [egPart "p1" "m", egPart "p3" "m"])] }
        (egPart "p2" "m")) "m") ∧
     egPart "p2" "m" ∈ partsOf (update_part
        { AppState.default with parts := [("m", [egPart "p1" "m", egPart "p3" "m"])] }
        (egPart "p2" "m")) "m" ∧
     (∀ q ∈ partsOf (update_part
        { AppState.default with parts := [("m", [egPart "p1" "m", egPart "p3" "m"])] }
        (egPart "p2" "m")) "m",
        q = egPart "p2" "m" ∨
          q ∈ partsOf { AppState.default with parts := [("m", [egPart "p1" "m", egPart "p3" "m"])] } "m") ∧
     ((partsOf { AppState.default with parts := [("m", [egPart "p1" "m", egPart "p3" "m"])] } "m").any
          (fun p => p.id = (egPart "p2" "m").id) = true →
        (partsOf (update_part
          { AppState.default with parts := [("m", [egPart "p1" "m", egPart "p3" "m"])] }
          (egPart "p2" "m")) "m").map Part.id
          = (partsOf { AppState.default with parts := [("m", [egPart "p1" "m", egPart "p3" "m"])] } "m").map
              Part.id)) :=
  ⟨by decide, c5_part_sorted_upsert.2 _ (egPart "p2" "m") (by decide)⟩

/-- C8: applying `permission.asked` twice with the same request id (and
session), the second event carrying a different payload, leaves exactly one
entry with that id in the session's queue, and that entry is the second
request. -/
theorem c8_permission_asked_replaces (st : AppState) (r1 r2 : PermissionRequest)
    (hid : r1.id = r2.id) (hsess : r1.session_id = r2.session_id)
    (hsorted : IdSorted PermissionRequest.id (permissionsOf st r2.session_id)) :
    (permissionsOf
        (handle_event (.permissionAsked r2) (handle_event (.permissionAsked r1) st))
        r2.session_id).countP (fun p => p.id = r2.id) = 1 ∧
    (∀ p ∈ permissionsOf
        (handle_event (.permissionAsked r2) (handle_event (.permissionAsked r1) st))
        r2.session_id, p.id = r2.id → p = r2) ∧
    r2 ∈ permissionsOf
        (handle_event (.permissionAsked r2) (handle_event (.permissionAsked r1) st))
        r2.session_id := by
  have hup : ∀ (s : AppState) (r : PermissionRequest),
      permissionsOf (handle_event (.permissionAsked r) s) r.session_id
        = upsertById PermissionRequest.id r (permissionsOf s r.session_id) := by
    intro s r
    show permissionsOf (handle_permission_asked s r) r.session_id = _
    simp [permissionsOf, handle_permission_asked, mapFind_mapInsert_self]
  have h1 := hup st r1
  rw [hsess] at h1
  have hs1 : IdSorted PermissionRequest.id
      (permissionsOf (handle_event (.permissionAsked r1) st) r2.session_id) := by
    rw [h1]
    exact upsertById_sorted _ r1 hsorted
  have h2 := hup (handle_event (.permissionAsked r1) st) r2
  rw [h2]
  exact ⟨upsertById_countP PermissionRequest.id r2 hs1,
    fun p hp hpid => upsertById_unique PermissionRequest.id r2 hs1 p hp hpid,
    self_mem_upsertById PermissionRequest.id r2 _⟩

theorem c8_witness :
    (egPermission "r1" "s1" "read").id = (egPermission "r1" "s1" "write").id ∧
    (egPermission "r1" "s1" "read").session_id = (egPermission "r1" "s1" "write").session_id ∧
    IdSorted PermissionRequest.id
      (permissionsOf AppState.default (egPermission "r1" "s1" "write").session_id) ∧
    ((permissionsOf
        (handle_event (.permissionAsked (egPermission "r1" "s1" "write"))
          (handle_event (.permissionAsked (egPermission "r1" "s1" "read")) AppState.default))
        (egPermission "r1" "s1" "write").session_id).countP
          (fun p => p.id = (egPermission "r1" "s1" "write").id) = 1 ∧
     (∀ p ∈ permissionsOf
        (handle_event (.permissionAsked (egPermission "r1" "s1" "write"))
          (handle_event (.permissionAsked (egPermission "r1" "s1" "read")) AppState.default))
        (egPermission "r1" "s1" "write").session_id,
        p.id = (egPermission "r1" "s1" "write").id → p = egPermission "r1" "s1" "write") ∧
     egPermission "r1" "s1" "write" ∈ permissionsOf
        (handle_event (.permissionAsked (egPermission "r1" "s1" "write"))
          (handle_event (.permissionAsked (egPermission "r1" "s1" "read")) AppState.default))
        (egPermission "r1" "s1" "write").session_id) :=
  ⟨by decide, by decide, by decide,
    c8_permission_asked_replaces AppState.default _ _ (by decide) (by decide) (by decide)⟩

/-- C6: removing a message removes it from its session's message list and
removes every part keyed to that message id; both happen inside the single
pure transition for `message.removed`, so no reader can observe one
without the other. -/
theorem c6_message_removed_cascade (st : AppState) (s m : String)
    (hmsg : m ∈ (messagesOf st s).map Message.id)
    (hthree : (partsOf st m).length = 3) :
    (∀ msg ∈ messagesOf (handle_event (.messageRemoved s m) st) s, ¬ msg.id = m) ∧
    mapFind (handle_event (.messageRemoved s m) st).parts m = none ∧
    partsOf (handle_event (.messageRemoved s m) st) m = [] := by
  cases hf : mapFind st.messages s with
  | none =>
    refine ⟨?_, ?_, ?_⟩
    · intro msg hmem
      rw [messagesOf] at hmem
      simp only [handle_event, hf] at hmem
      simp at hmem
    · simp only [handle_event, hf]
      exact mapFind_mapErase_self st.parts m
    · rw [partsOf]
      simp only [handle_event, hf]
      rw [mapFind_mapErase_self]
      rfl
  | some msgs =>
    refine ⟨?_, ?_, ?_⟩
    · intro msg hmem
      rw [messagesOf] at hmem
      simp only [handle_event, hf] at hmem
      rw [mapFind_mapModify_self st.messages s _ hf] at hmem
      simp only [Option.getD_some, List.mem_filter] at hmem
      simpa using hmem.2
    · simp only [handle_event, hf]
      exact mapFind_mapErase_self _ m
    · rw [partsOf]
      simp only [handle_event, hf]
      rw [mapFind_mapErase_self]
      rfl

theorem c6_witness :
    ("m1" ∈ (messagesOf
        { AppState.default with
          messages := [("s1", [egMessage "m1" "s1", egMessage "m2" "s1"])],
          parts := [("m1", [egPart "pa" "m1", egPart "pb" "m1", egPart "pc" "m1"])] } "s1").map
        Message.id) ∧
    (partsOf
        { AppState.default with
          messages := [("s1", [egMessage "m1" "s1", egMessage "m2" "s1"])],
          parts := [("m1", [egPart "pa" "m1", egPart "pb" "m1", egPart "pc" "m1"])] } "m1").length = 3 ∧
    ((∀ msg ∈ messagesOf (handle_event (.messageRemoved "s1" "m1")
        { AppState.default with
          messages := [("s1", [egMessage "m1" "s1", egMessage "m2" "s1"])],
          parts := [("m1", [egPart "pa" "m1", egPart "pb" "m1", egPart "pc" "m1"])] }) "s1",
        ¬ msg.id = "m1") ∧
      mapFind (handle_event (.messageRemoved "s1" "m1")
        { AppState.default with
          messages := [("s1", [egMessage "m1" "s1", egMessage "m2" "s1"])],
          parts := [("m1", [egPart "pa" "m1", egPart "pb" "m1", egPart "pc" "m1"])] }).parts "m1" = none ∧
      partsOf (handle_event (.messageRemoved "s1" "m1")
        { AppState.default with
          messages := [("s1", [egMessage "m1" "s1", egMessage "m2" "s1"])],
          parts := [("m1", [egPart "pa" "m1", egPart "pb" "m1", egPart "pc" "m1"])] }) "m1" = []) :=
  ⟨by decide, by decide, c6_message_removed_cascade _ "s1" "m1" (by decide) (by decide)⟩

/-- C9: `message.part.removed` for a part that was never added, and
`permission.replied` for a request id not in the session's queue, leave the
whole store unchanged — they are silent no-ops, not errors. -/
theorem c9_mismatch_noop :
    (∀ (st : AppState) (message_id part_id : String),
        (∀ p ∈ partsOf st message_id, ¬ p.id = part_id) →
        handle_event (.messagePartRemoved message_id part_id) st = st) ∧
    (∀ (st : AppState) (session_id request_id : String),
        (∀ p ∈ permissionsOf st session_id, ¬ p.id = request_id) →
        handle_event (.permissionReplied session_id request_id) st = st) := by
  constructor
  · intro st message_id part_id hno
    show remove_part st message_id part_id = st
    rw [remove_part]
    cases hf : mapFind st.parts message_id with
    | none => rfl
    | some ps =>
      have hps : partsOf st message_id = ps := by rw [partsOf, hf]; rfl
      have hfix : mapModify st.parts message_id
          (fun l => l.filter (fun p => ¬ p.id = part_id)) = st.parts := by
        apply mapModify_eq_self
        intro v hv
        rw [hf] at hv
        injection hv with hv
        subst hv
        apply List.filter_eq_self.mpr
        intro a ha
        simpa using hno a (hps ▸ ha)
      simp only [hfix]
  · intro st session_id request_id hno
    show handle_permission_replied st session_id request_id = st
    rw [handle_permission_replied]
    cases hf : mapFind st.permissions session_id with
    | none => rfl
    | some q =>
      have hq : permissionsOf st session_id = q := by rw [permissionsOf, hf]; rfl
      have hfix : mapModify st.permissions session_id
          (fun l => l.filter (fun p => ¬ p.id = request_id)) = st.permissions := by
        apply mapModify_eq_self
        intro v hv
        rw [hf] at hv
        injection hv with hv
        subst hv
        apply List.filter_eq_self.mpr
        intro a ha
        simpa using hno a (hq ▸ ha)
      simp only [hfix]

theorem c9_witness :
    (∀ p ∈ partsOf
        { AppState.default with
          parts := [("m1", [egPart "p1" "m1"])],
          permissions := [("s1", [egPermission "r1" "s1" "read"])] } "m1", ¬ p.id = "p9") ∧
    (∀ p ∈ permissionsOf
        { AppState.default with
          parts := [("m1", [egPart "p1" "m1"])],
          permissions := [("s1", [egPermission "r1" "s1" "read"])] } "s1", ¬ p.id = "r9") ∧
    handle_event (.messagePartRemoved "m1" "p9")
        { AppState.default with
          parts := [("m1", [egPart "p1" "m1"])],
          permissions := [("s1", [egPermission "r1" "s1" "read"])] }
      = { AppState.default with
          parts := [("m1", [egPart "p1" "m1"])],
          permissions := [("s1", [egPermission "r1" "s1" "read"])] } ∧
    handle_event (.permissionReplied "s1" "r9")
        { AppState.default with
          parts := [("m1", [egPart "p1" "m1"])],
          permissions := [("s1", [egPermission "r1" "s1" "read"])] }
      = { AppState.default with
          parts := [("m1", [egPart "p1" "m1"])],
          permissions := [("s1", [egPermission "r1" "s1" "read"])] } :=
  ⟨by decide, by decide,
    c9_mismatch_noop.1 _ "m1" "p9" (by decide),
    c9_mismatch_noop.2 _ "s1" "r9" (by decide)⟩

/-- C7: a block with a `data:` line but a missing or unrecognized `event:`
label decodes on the message-generation stream to a `Content` event
carrying the trimmed payload (a missing label defaults to `"message"`,
an unknown label falls to the opaque-content arm), while the daemon
decoder yields no event for the same block. -/
theorem c7_default_and_unknown_labels (J : SerdeJson) (label payload : Str)
    (hlab : '\n' ∉ label) (hpay : '\n' ∉ payload) :
    (parse_sse_message J (dataKey ++ payload) = some (.content (trimStr payload)) ∧
     parse_daemon_event_message J (dataKey ++ payload) = none) ∧
    (trimStr label ∉ msgLabels → trimStr label ∉ daemonLabels →
      parse_sse_message J (eventKey ++ label ++ '\n' :: (dataKey ++ payload))
        = some (.content (trimStr payload)) ∧
      parse_daemon_event_message J (eventKey ++ label ++ '\n' :: (dataKey ++ payload)) = none) := by
  have hd1 : '\n' ∉ dataKey ++ payload := by
    intro hm
    rcases List.mem_append.mp hm with hm | hm
    · exact absurd hm (by decide)
    · exact hpay hm
  have hne1 : dataKey ++ payload ≠ [] := by
    rw [show dataKey = 'd' :: "ata:".toList from rfl]
    simp
  have hlines1 : rustLines (dataKey ++ payload) = [dataKey ++ payload] :=
    rustLines_single hd1 hne1
  have hscan1 : scanBlock (rustLines (dataKey ++ payload)) = (none, some (trimStr payload)) := by
    rw [hlines1]
    exact scanBlock_data_only payload
  constructor
  · exact ⟨parse_sse_message_content J hscan1 (by decide),
      parse_daemon_none_of_no_label J hscan1⟩
  · intro hmsg hdae
    have hnle : '\n' ∉ eventKey ++ label := by
      intro hm
      rcases List.mem_append.mp hm with hm | hm
      · exact absurd hm (by decide)
      · exact hlab hm
    have hlines2 : rustLines (eventKey ++ label ++ '\n' :: (dataKey ++ payload))
        = (eventKey ++ stripCR label) :: [dataKey ++ payload] := by
      rw [rustLines_append_nl _ hnle, stripCR_append eventKey label (by decide), hlines1]
    have hscan2 : scanBlock (rustLines (eventKey ++ label ++ '\n' :: (dataKey ++ payload)))
        = (some (trimStr label), some (trimStr payload)) := by
      rw [hlines2]
      have hs := scanBlock_event_data (stripCR label) payload
      rw [trimStr_stripCR] at hs
      exact hs
    refine ⟨parse_sse_message_content J hscan2 ?_, parse_daemon_none_of_unknown J hscan2 hdae⟩
    intro l hl hc
    rw [Option.getD_some] at hc
    refine hmsg ?_
    rw [hc]
    exact hl

theorem c7_witness :
    ((parse_sse_message egJson (dataKey ++ "  hi  ".toList)
        = some (.content (trimStr "  hi  ".toList)) ∧
      parse_daemon_event_message egJson (dataKey ++ "  hi  ".toList) = none) ∧
     (parse_sse_message egJson
          (eventKey ++ " mystery\r".toList ++ '\n' :: (dataKey ++ "  hi  ".toList))
        = some (.content (trimStr "  hi  ".toList)) ∧
      parse_daemon_event_message egJson
          (eventKey ++ " mystery\r".toList ++ '\n' :: (dataKey ++ "  hi  ".toList)) = none)) :=
  ⟨(c7_default_and_unknown_labels egJson " mystery\r".toList "  hi  ".toList
      (by decide) (by decide)).1,
   (c7_default_and_unknown_labels egJson " mystery\r".toList "  hi  ".toList
      (by decide) (by decide)).2 (by decide) (by decide)⟩

/-- C10: `session.deleted` removes the session from the sessions list,
drops the session's entry in the messages map, and clears the active
selection when it pointed at the deleted session; it leaves the
session-status map, the permission and question queues, and every stored
part untouched (statuses, pending prompts and orphaned parts survive). -/
theorem c10_session_deleted_frame (st : AppState) (sid : String) :
    (handle_event (.sessionDeleted sid) st).sessions
        = st.sessions.filter (fun s => ¬ s.id = sid) ∧
    mapFind (handle_event (.sessionDeleted sid) st).messages sid = none ∧
    (∀ k, ¬ k = sid →
      mapFind (handle_event (.sessionDeleted sid) st).messages k = mapFind st.messages k) ∧
    (st.active_session_id = some sid →
      (handle_event (.sessionDeleted sid) st).active_session_id = none) ∧
    (¬ st.active_session_id = some sid →
      (handle_event (.sessionDeleted sid) st).active_session_id = st.active_session_id) ∧
    (handle_event (.sessionDeleted sid) st).session_status = st.session_status ∧
    (handle_event (.sessionDeleted sid) st).permissions = st.permissions ∧
    (handle_event (.sessionDeleted sid) st).questions = st.questions ∧
    (handle_event (.sessionDeleted sid) st).parts = st.parts := by
  by_cases hact : st.active_session_id = some sid
  · have hres : handle_event (.sessionDeleted sid) st
        = { st with sessions := st.sessions.filter (fun s => ¬ s.id = sid),
                    messages := mapErase st.messages sid,
                    active_session_id := none, active_view := .sessions } := by
      show remove_session st sid = _
      simp [remove_session, hact]
    rw [hres]
    exact ⟨rfl, mapFind_mapErase_self _ _, fun k hk => mapFind_mapErase_ne _ _ _ hk,
      fun _ => rfl, fun hc => absurd hact hc, rfl, rfl, rfl, rfl⟩
  · have hres : handle_event (.sessionDeleted sid) st
        = { st with sessions := st.sessions.filter (fun s => ¬ s.id = sid),
                    messages := mapErase st.messages sid } := by
      show remove_session st sid = _
      simp [remove_session, hact]
    rw [hres]
    exact ⟨rfl, mapFind_mapErase_self _ _, fun k hk => mapFind_mapErase_ne _ _ _ hk,
      fun hc => absurd hc hact, fun _ => rfl, rfl, rfl, rfl, rfl⟩

theorem c10_witness :
    (handle_event (.sessionDeleted "s1")
        { AppState.default with
          sessions := [{ id := "s1", title := none, created_at := 0, updated_at := 0,
                         agent := none, model := none, message_count := 0 }],
          active_session_id := some "s1", active_view := .chat,
          session_status := [("s1", { busy := true, agent := none })],
          messages := [("s1", [egMessage "m1" "s1"])],
          parts := [("m1", [egPart "p1" "m1"])],
          permissions := [("s1", [egPermission "r1" "s1" "read"])] }).sessions = [] ∧
    mapFind (handle_event (.sessionDeleted "s1")
        { AppState.default with
          sessions := [{ id := "s1", title := none, created_at := 0, updated_at := 0,
                         agent := none, model := none, message_count := 0 }],
          active_session_id := some "s1", active_view := .chat,
          session_status := [("s1", { busy := true, agent := none })],
          messages := [("s1", [egMessage "m1" "s1"])],
          parts := [("m1", [egPart "p1" "m1"])],
          permissions := [("s1", [egPermission "r1" "s1" "read"])] }).messages "s1" = none ∧
    (handle_event (.sessionDeleted "s1")
        { AppState.default with
          sessions := [{ id := "s1", title := none, created_at := 0, updated_at := 0,
                         agent := none, model := none, message_count := 0 }],
          active_session_id := some "s1", active_view := .chat,
          session_status := [("s1", { busy := true, agent := none })],
          messages := [("s1", [egMessage "m1" "s1"])],
          parts := [("m1", [egPart "p1" "m1"])],
          permissions := [("s1", [egPermission "r1" "s1" "read"])] }).active_session_id = none ∧
    (handle_event (.sessionDeleted "s1")
        { AppState.default with
          sessions := [{ id := "s1", title := none, created_at := 0, updated_at := 0,
                         agent := none, model := none, message_count := 0 }],
          active_session_id := some "s1", active_view := .chat,
          session_status := [("s1", { busy := true, agent := none })],
          messages := [("s1", [egMessage "m1" "s1"])],
          parts := [("m1", [egPart "p1" "m1"])],
          permissions := [("s1", [egPermission "r1" "s1" "read"])] }).session_status
      = [("s1", { busy := true, agent := none })] ∧
    (handle_event (.sessionDeleted "s1")
        { AppState.default with
          sessions := [{ id := "s1", title := none, created_at := 0, updated_at := 0,
                         agent := none, model := none, message_count := 0 }],
          active_session_id := some "s1", active_view := .chat,
          session_status := [("s1", { busy := true, agent := none })],
          messages := [("s1", [egMessage "m1" "s1"])],
          parts := [("m1", [egPart "p1" "m1"])],
          permissions := [("s1", [egPermission "r1" "s1" "read"])] }).parts
      = [("m1", [egPart "p1" "m1"])] ∧
    (handle_event (.sessionDeleted "s1")
        { AppState.default with
          sessions := [{ id := "s1", title := none, created_at := 0, updated_at := 0,
                         agent := none, model := none, message_count := 0 }],
          active_session_id := some "s1", active_view := .chat,
          session_status := [("s1", { busy := true, agent := none })],
          messages := [("s1", [egMessage "m1" "s1"])],
          parts := [("m1", [egPart "p1" "m1"])],
          permissions := [("s1", [egPermission "r1" "s1" "read"])] }).permissions
      = [("s1", [egPermission "r1" "s1" "read"])] := by
  have h := c10_session_deleted_frame
    { AppState.default with
      sessions := [{ id := "s1", title := none, created_at := 0, updated_at := 0,
                     agent := none, model := none, message_count := 0 }],
      active_session_id := some "s1", active_view := .chat,
      session_status := [("s1", { busy := true, agent := none })],
      messages := [("s1", [egMessage "m1" "s1"])],
      parts := [("m1", [egPart "p1" "m1"])],
      permissions := [("s1", [egPermission "r1" "s1" "read"])] } "s1"
  refine ⟨?_, h.2.1, h.2.2.2.1 rfl, h.2.2.2.2.2.1, h.2.2.2.2.2.2.2.2, h.2.2.2.2.2.2.1⟩
  rw [h.1]
  decide

end AgentCore
